import Mathlib

/-!
# Verification of the anvil-tools region codec

A shallow embedding of the region-file codec from `src/region.rs` and the
chunk tag surgery from `src/commands/strip.rs`, together with theorems
settling the specified properties.

Files are modelled as byte buffers (`ByteBuf`): a size and a byte function.
External collaborators (the zlib/gzip streams of `flate2` and the NBT codec
of `fastnbt`) are parameters (`Codec`, `NbtCodec`): the theorems assume only
the pointwise round-trip facts the code relies on.  Rust panics (slice
bounds, `expect`) are modelled as explicit `panic`/`error` outcomes; `i32`
truncated remainder is `Int.tmod`; `u32` wrap-around is `% 2^32`.
-/

namespace AnvilTools

/-! ## Byte buffers -/

/-- A byte buffer: the model of a file or memory map.  Only the first
`size` bytes are meaningful; all reads in the embedding are bounds-checked
before `byte` is consulted, mirroring Rust slice semantics. -/
structure ByteBuf where
  size : Nat
  byte : Nat → Nat

/-- An all-zero buffer (`set_len` zero-fills fresh bytes). -/
def zeros (n : Nat) : ByteBuf :=
  { size := n, byte := fun _ => 0 }

/-- Buffer holding exactly the bytes of a list. -/
def ofList (l : List Nat) : ByteBuf :=
  { size := l.length, byte := fun k => l.getD k 0 }

/-- The slice `buf[off .. off+len)` as a list (callers bounds-check first). -/
def seg (f : ByteBuf) (off : Nat) : Nat → List Nat
  | 0 => []
  | n + 1 => f.byte off :: seg f (off + 1) n

/-- `File::set_len`: truncate or zero-extend to `n` bytes. -/
def setLen (f : ByteBuf) (n : Nat) : ByteBuf :=
  { size := n, byte := fun k => if k < min n f.size then f.byte k else 0 }

/-- Seek to `off` and write all of `d` (zero-filling any gap past EOF). -/
def writeAt (f : ByteBuf) (off : Nat) (d : List Nat) : ByteBuf :=
  { size := max f.size (off + d.length),
    byte := fun k =>
      if off ≤ k ∧ k < off + d.length then d.getD (k - off) 0
      else if k < f.size then f.byte k else 0 }

/-! ## Constants (src/region.rs) -/

def ENTRY_COUNT : Nat := 32 * 32
def ENTRY_LENGTH : Nat := 4
def HEADER_SIZE : Nat := ENTRY_COUNT * ENTRY_LENGTH
def REGION_LOCATION_OFFSET : Nat := 0
def SECTOR_SIZE : Nat := 4096
def INITIAL_CAPACITY : Nat := HEADER_SIZE * 2

/-! ## Value layer -/

structure ChunkPos where
  x : Int
  z : Int
deriving DecidableEq

structure Chunk where
  data : List Nat
  position : ChunkPos
deriving DecidableEq

structure RegionEntry where
  position : ChunkPos
  sector_index : Nat
  sector_count : Nat
deriving DecidableEq

/-- Big-endian bytes of a 32-bit value (`u32::to_be_bytes`; the `as u32`
cast is absorbed: only `n % 2^32` matters). -/
def toBE32 (n : Nat) : List Nat :=
  [n / 2 ^ 24 % 256, n / 2 ^ 16 % 256, n / 2 ^ 8 % 256, n % 256]

/-- `u32::from_be_bytes` / `read_u32::<BigEndian>` over a 4-byte list. -/
def fromBE32 (l : List Nat) : Nat :=
  l.foldl (fun a b => a * 256 + b) 0

inductive CompressionMode where
  | Gzip
  | Zlib
  | Uncompressed
deriving DecidableEq

def CompressionMode.from_int (i : Nat) : Option CompressionMode :=
  match i with
  | 1 => some .Gzip
  | 2 => some .Zlib
  | 3 => some .Uncompressed
  | _ => none

def CompressionMode.to_int : CompressionMode → Nat
  | .Gzip => 1
  | .Zlib => 2
  | .Uncompressed => 3

/-- External (de)compression streams (`flate2`), treated as parameters. -/
structure Codec where
  zlibCompress : List Nat → List Nat
  zlibDecompress : List Nat → Option (List Nat)
  gzipDecompress : List Nat → Option (List Nat)

/-- Identity instantiation of the streams, used for concrete witnesses. -/
def idCodec : Codec :=
  { zlibCompress := id, zlibDecompress := some, gzipDecompress := some }

/-! ## Region reader (src/region.rs, `RegionFile`) -/

structure RegionFile where
  map : ByteBuf

/-- `RegionFile::open` (region.rs:29-37): `File::open` hands the file to
`mapr::Mmap::map`, and `mapr` (a fork of memmap 0.7) rejects zero-length
maps with an `io::Error` (its unix backend refuses a zero-length map, and
POSIX `mmap` with length 0 fails with `EINVAL` regardless), so opening an
empty file fails before any slot is read.  On a non-empty file the map
holds exactly the file's bytes.  (`open` is a Lean keyword, hence the
name `openFile`.) -/
def RegionFile.openFile (f : ByteBuf) : Except String RegionFile :=
  if f.size = 0 then .error "memory map must have a non-zero length"
  else .ok { map := f }

inductive IoErrorKind where
  | unexpectedEof
  | decompressFailed
deriving DecidableEq

/-- Outcome of decoding one slot of the 1024-slot stream.  `panic` models a
Rust panic (out-of-bounds slice or a failed `expect`), which aborts the
whole process rather than being carried as an element. -/
inductive SlotResult where
  | absent
  | chunk (c : Chunk)
  | ioError (e : IoErrorKind)
  | panic (msg : String)
deriving DecidableEq

/-- `RegionFile::read_entry`: the 4-byte slice panics when it reaches past
the end of the map. -/
def RegionFile.read_entry (self : RegionFile) (entry_index : Nat) :
    Except String (Option RegionEntry) :=
  let entry_offset := REGION_LOCATION_OFFSET + entry_index * 4
  if entry_offset + 4 > self.map.size then
    .error "range end index out of range for slice"
  else
    let entry_field := fromBE32 (seg self.map entry_offset 4)
    if entry_field = 0 then
      .ok none
    else
      .ok (some
        { position :=
            { x := Int.ofNat (entry_index % 32), z := Int.ofNat (entry_index / 32) },
          sector_index := Nat.land (entry_field >>> 8) 0xFFFFFF,
          sector_count := Nat.land entry_field 0xFF })

/-- `RegionFile::get_chunk_from_entry`.  Slicing past end-of-map panics; a
truncated length field or empty limited stream is an `UnexpectedEof`
`io::Error`; an unknown compression byte hits
`.expect("Invalid compression type")`, i.e. a panic. -/
def RegionFile.get_chunk_from_entry (self : RegionFile) (c : Codec)
    (entry : RegionEntry) : SlotResult :=
  let offset := entry.sector_index * SECTOR_SIZE
  let length := entry.sector_count * SECTOR_SIZE
  if offset + length > self.map.size then
    .panic "range end index out of range for slice"
  else
    let s := seg self.map offset length
    -- `read_u32` needs 4 bytes of the slice, whose length is `length`
    if length < 4 then
      .ioError .unexpectedEof
    else
      let exact_length := fromBE32 (s.take 4)
      match (s.drop 4).take exact_length with
      | [] => .ioError .unexpectedEof
      | compression_mode_int :: rest =>
        match CompressionMode.from_int compression_mode_int with
        | none => .panic "Invalid compression type"
        | some .Gzip =>
          match c.gzipDecompress rest with
          | some d => .chunk { data := d, position := entry.position }
          | none => .ioError .decompressFailed
        | some .Zlib =>
          match c.zlibDecompress rest with
          | some d => .chunk { data := d, position := entry.position }
          | none => .ioError .decompressFailed
        | some .Uncompressed => .chunk { data := rest, position := entry.position }

/-- `RegionFile::get_chunk_from_index` merged with the iterator element
shape: absent / chunk / error / panic. -/
def RegionFile.get_chunk_from_index (self : RegionFile) (c : Codec)
    (index : Nat) : SlotResult :=
  match self.read_entry index with
  | .error msg => .panic msg
  | .ok none => .absent
  | .ok (some e) => self.get_chunk_from_entry c e

/-- The chunk iterator from slot `i`, for `n` more slots; a panic ends the
sequence (the process aborts). -/
def streamFrom (c : Codec) (rf : RegionFile) : Nat → Nat → List SlotResult
  | _, 0 => []
  | i, n + 1 =>
    match rf.get_chunk_from_index c i with
    | .panic msg => [.panic msg]
    | .absent => .absent :: streamFrom c rf (i + 1) n
    | .chunk ch => .chunk ch :: streamFrom c rf (i + 1) n
    | .ioError e => .ioError e :: streamFrom c rf (i + 1) n

/-- `RegionFile::stream_chunks`: one element per slot in row-major order,
cut short by a panic. -/
def RegionFile.stream_chunks (self : RegionFile) (c : Codec) : List SlotResult :=
  streamFrom c self 0 ENTRY_COUNT

/-! ## parse_name (src/region.rs) -/

/-- Rust `str::split('.')`: fields between separators (an empty string has
one empty field). -/
def splitOnChar (sep : Char) : List Char → List (List Char)
  | [] => [[]]
  | c :: rest =>
    if c = sep then
      [] :: splitOnChar sep rest
    else
      match splitOnChar sep rest with
      | f :: fs => (c :: f) :: fs
      | [] => [[c]]

def decimalValue (ds : List Char) : Nat :=
  ds.foldl (fun a c => a * 10 + (c.toNat - 48)) 0

/-- Rust `str::parse::<i32>`: optional sign, one or more ASCII digits,
value within `i32` range; anything else is an error. -/
def parseI32 (cs : List Char) : Option Int :=
  match cs with
  | [] => none
  | c :: rest =>
    let signedDigits : Bool × List Char :=
      if c = '-' then (true, rest)
      else if c = '+' then (false, rest)
      else (false, cs)
    let digits := signedDigits.2
    if digits.isEmpty then none
    else if digits.all Char.isDigit then
      let v : Int :=
        if signedDigits.1 then -(decimalValue digits : Int) else (decimalValue digits : Int)
      if -(2 ^ 31) ≤ v ∧ v ≤ 2 ^ 31 - 1 then some v else none
    else none

/-- `RegionFile::parse_name`: `none` models the `expect` panics. -/
def RegionFile.parse_name (name : String) : Option ChunkPos :=
  match (splitOnChar '.' name.data).drop 1 with
  | [] => none
  | xf :: rest =>
    match parseI32 xf with
    | none => none
    | some x =>
      match rest with
      | [] => none
      | zf :: _ =>
        match parseI32 zf with
        | none => none
        | some z => some { x := x, z := z }

/-! ## Region writer (src/region.rs, `RegionFileWriter`) -/

structure RegionFileWriter where
  file : ByteBuf
  header_map : ByteBuf
  used_sectors : Nat
  capacity : Nat

/-- `RegionFileWriter::create`: truncate, grow to two sectors (zero-filled),
map the header mutably, start allocating at sector 2. -/
def RegionFileWriter.create : RegionFileWriter :=
  { file := zeros INITIAL_CAPACITY
    header_map := zeros INITIAL_CAPACITY
    used_sectors := 2
    capacity := INITIAL_CAPACITY }

/-- `create_compressed_chunk_payload`: compression byte `2` followed by the
zlib stream. -/
def RegionFileWriter.create_compressed_chunk_payload (c : Codec)
    (payload : List Nat) : List Nat :=
  CompressionMode.Zlib.to_int :: c.zlibCompress payload

/-- `create_chunk_data_stream`: 4-byte big-endian exact length (compression
byte included) followed by the payload. -/
def RegionFileWriter.create_chunk_data_stream (c : Codec)
    (chunk_data : List Nat) : List Nat :=
  let payload := RegionFileWriter.create_compressed_chunk_payload c chunk_data
  toBE32 payload.length ++ payload

/-- `write_data`: grow the file to `(sector_index + sector_count) * 4096`
bytes when needed, then write the framed bytes at the sector offset. -/
def RegionFileWriter.write_data (self : RegionFileWriter)
    (sector_index sector_count : Nat) (data : List Nat) : RegionFileWriter :=
  let sector_offset := sector_index * SECTOR_SIZE
  let capacity := (sector_index + sector_count) * SECTOR_SIZE
  let grown :=
    if self.capacity < capacity then
      { self with file := setLen self.file capacity, capacity := capacity }
    else self
  { grown with file := writeAt grown.file sector_offset data }

/-- The packed header field `(sector_index << 8) | sector_count` on `u32`
operands (shifts wrap modulo `2^32`). -/
def entryField (sector_index sector_count : Nat) : Nat :=
  Nat.lor (sector_index <<< 8 % 2 ^ 32) sector_count

/-- The slot index `(x % 32) + (z % 32) * 32` with Rust truncated `%` on
`i32`; negative for some out-of-range positions. -/
def slotIndexZ (p : ChunkPos) : Int :=
  p.x.tmod 32 + p.z.tmod 32 * 32

/-- `write_entry`: a negative index, cast to `usize`, produces a huge
offset and the header-map slice panics. -/
def RegionFileWriter.write_entry (self : RegionFileWriter) (entry : RegionEntry) :
    Except String RegionFileWriter :=
  let entry_index : Int := slotIndexZ entry.position
  if entry_index < 0 then
    .error "range start index out of range for slice"
  else
    let entry_offset := entry_index.toNat * 4
    let entry_data := toBE32 (entryField entry.sector_index entry.sector_count)
    .ok { self with header_map := writeAt self.header_map entry_offset entry_data }

/-- `add_chunk`: frame and compress, allocate `ceil(len/4096)` sectors at
`used_sectors`, write the data, update the header entry, advance the
counter. -/
def RegionFileWriter.add_chunk (self : RegionFileWriter) (c : Codec)
    (chunk : Chunk) : Except String RegionFileWriter :=
  let data := RegionFileWriter.create_chunk_data_stream c chunk.data
  let sector_count := (data.length + SECTOR_SIZE - 1) / SECTOR_SIZE
  let sector_index := self.used_sectors
  let written := self.write_data sector_index sector_count data
  match written.write_entry
      { position := chunk.position
        sector_index := sector_index % 2 ^ 32
        sector_count := sector_count % 2 ^ 32 } with
  | .error msg => .error msg
  | .ok w => .ok { w with used_sectors := w.used_sectors + sector_count }

/-- The on-disk bytes after `Drop`: the flushed header map over the first
two sectors, the appended file contents beyond them. -/
def RegionFileWriter.close (self : RegionFileWriter) : ByteBuf :=
  { size := self.file.size
    byte := fun k =>
      if k < INITIAL_CAPACITY then self.header_map.byte k else self.file.byte k }

/-- Write a whole list of chunks in order (create-then-add_chunk runs). -/
def writeAll (c : Codec) (w : RegionFileWriter) : List Chunk →
    Except String RegionFileWriter
  | [] => .ok w
  | ch :: rest =>
    match w.add_chunk c ch with
    | .error msg => .error msg
    | .ok w2 => writeAll c w2 rest

/-! ## Tag surgery (src/commands/strip.rs) -/

/-- The generic tag tree (`fastnbt::Value`).  Floats are carried as opaque
bit patterns; the surgery never inspects scalars. -/
inductive NbtValue where
  | byte (v : Int)
  | short (v : Int)
  | int (v : Int)
  | long (v : Int)
  | floatBits (v : Nat)
  | doubleBits (v : Nat)
  | byteArray (v : List Int)
  | string (v : String)
  | list (elems : List NbtValue)
  | compound (entries : List (String × NbtValue))
  | intArray (v : List Int)
  | longArray (v : List Int)

/-- `HashMap::remove` on the association-list model of a compound. -/
def removeKey (entries : List (String × NbtValue)) (k : String) :
    List (String × NbtValue) :=
  entries.filter (fun e => e.1 ≠ k)

/-- `HashMap::get` on the association-list model. -/
def lookupKey (entries : List (String × NbtValue)) (k : String) : Option NbtValue :=
  match entries.find? (fun e => e.1 = k) with
  | some e => some e.2
  | none => none

/-- Remove `SkyLight` and `BlockLight` from a section compound; leave
non-compound sections alone. -/
def stripSection (s : NbtValue) : NbtValue :=
  match s with
  | .compound entries => .compound (removeKey (removeKey entries "SkyLight") "BlockLight")
  | other => other

/-- In-place mutation through `get_mut("sections")`: if the value is a
list, strip each section. -/
def stripSectionsValue (v : NbtValue) : NbtValue :=
  match v with
  | .list sections => .list (sections.map stripSection)
  | other => other

def mapSectionsEntry (entries : List (String × NbtValue)) :
    List (String × NbtValue) :=
  entries.map (fun e => if e.1 = "sections" then (e.1, stripSectionsValue e.2) else e)

/-- The pure value-level surgery of `strip_chunk`: on a compound root,
remove `Heightmaps` and `isLightOn`, then strip each compound element of a
`sections` list; any other root is untouched. -/
def stripValue (nbt : NbtValue) : NbtValue :=
  match nbt with
  | .compound level =>
    .compound (mapSectionsEntry (removeKey (removeKey level "Heightmaps") "isLightOn"))
  | other => other

/-- The external NBT codec (`fastnbt::from_bytes` / `fastnbt::to_writer`),
treated as a parameter. -/
structure NbtCodec where
  fromBytes : List Nat → Option NbtValue
  toBytes : NbtValue → Option (List Nat)

/-- `strip_chunk`: deserialize, apply the surgery, re-serialize; failures
become per-chunk errors. -/
def strip_chunk (nc : NbtCodec) (chunk : Chunk) : Except String Chunk :=
  match nc.fromBytes chunk.data with
  | none => .error "could not deserialize NBT"
  | some nbt =>
    match nc.toBytes (stripValue nbt) with
    | none => .error "could not serialize NBT"
    | some rewritten_data => .ok { data := rewritten_data, position := chunk.position }

/-! ## Helper lemmas: slices -/

theorem seg_length (f : ByteBuf) (off len : Nat) : (seg f off len).length = len := by
  induction len generalizing off with
  | zero => rfl
  | succ n ih => simp [seg, ih]

theorem seg_getElem? (f : ByteBuf) (off len i : Nat) :
    (seg f off len)[i]? = if i < len then some (f.byte (off + i)) else none := by
  induction len generalizing off i with
  | zero => simp [seg]
  | succ n ih =>
    cases i with
    | zero => simp [seg]
    | succ j =>
      simp only [seg, List.getElem?_cons_succ, ih (off + 1) j]
      have h : off + 1 + j = off + (j + 1) := by omega
      rw [h]
      by_cases hj : j < n
      · simp [hj, Nat.succ_lt_succ hj]
      · simp [hj, show ¬ (j + 1 < n + 1) by omega]

theorem seg_take (f : ByteBuf) (off len m : Nat) :
    (seg f off len).take m = seg f off (min m len) := by
  apply List.ext_getElem?
  intro i
  rw [List.getElem?_take, seg_getElem?, seg_getElem?]
  by_cases h1 : i < m <;> by_cases h2 : i < len <;>
    simp [h1, h2, Nat.lt_min, *]

theorem seg_drop (f : ByteBuf) (off len m : Nat) :
    (seg f off len).drop m = seg f (off + m) (len - m) := by
  apply List.ext_getElem?
  intro i
  rw [List.getElem?_drop, seg_getElem?, seg_getElem?]
  by_cases h : m + i < len
  · rw [if_pos h, if_pos (by omega), show off + (m + i) = off + m + i from by omega]
  · rw [if_neg h, if_neg (by omega)]

theorem seg_congr {f g : ByteBuf} (off len : Nat)
    (h : ∀ k, off ≤ k → k < off + len → f.byte k = g.byte k) :
    seg f off len = seg g off len := by
  apply List.ext_getElem?
  intro i
  rw [seg_getElem?, seg_getElem?]
  by_cases hi : i < len
  · rw [if_pos hi, if_pos hi, h (off + i) (by omega) (by omega)]
  · rw [if_neg hi, if_neg hi]

theorem seg_four (f : ByteBuf) (off : Nat) :
    seg f off 4 = [f.byte off, f.byte (off + 1), f.byte (off + 2), f.byte (off + 3)] := by
  show f.byte off :: seg f (off + 1) 3 = _
  show f.byte off :: f.byte (off + 1) :: seg f (off + 1 + 1) 2 = _
  show f.byte off :: f.byte (off + 1) :: f.byte (off + 2) :: seg f (off + 2 + 1) 1 = _
  show f.byte off :: f.byte (off + 1) :: f.byte (off + 2) :: f.byte (off + 3) :: seg f (off + 3 + 1) 0 = _
  rfl

theorem writeAt_size (f : ByteBuf) (off : Nat) (d : List Nat) :
    (writeAt f off d).size = max f.size (off + d.length) := rfl

theorem writeAt_byte_lt (f : ByteBuf) (off : Nat) (d : List Nat) (k : Nat)
    (h : k < off) (hk : k < f.size) : (writeAt f off d).byte k = f.byte k := by
  simp only [writeAt]
  rw [if_neg (by omega), if_pos hk]

theorem writeAt_byte_ge (f : ByteBuf) (off : Nat) (d : List Nat) (k : Nat)
    (h : off + d.length ≤ k) (hk : k < f.size) : (writeAt f off d).byte k = f.byte k := by
  simp only [writeAt]
  rw [if_neg (by omega), if_pos hk]

theorem writeAt_byte_in (f : ByteBuf) (off : Nat) (d : List Nat) (k : Nat)
    (h1 : off ≤ k) (h2 : k < off + d.length) :
    (writeAt f off d).byte k = d.getD (k - off) 0 := by
  simp only [writeAt]
  rw [if_pos ⟨h1, h2⟩]

theorem seg_writeAt_self (f : ByteBuf) (off : Nat) (d : List Nat) :
    seg (writeAt f off d) off d.length = d := by
  apply List.ext_getElem?
  intro i
  rw [seg_getElem?]
  by_cases hi : i < d.length
  · rw [if_pos hi, writeAt_byte_in f off d (off + i) (by omega) (by omega)]
    have : off + i - off = i := by omega
    rw [this, List.getD_eq_getElem?_getD, List.getElem?_eq_getElem hi]
    simp
  · rw [if_neg hi, eq_comm, List.getElem?_eq_none_iff]
    omega

theorem setLen_size (f : ByteBuf) (n : Nat) : (setLen f n).size = n := rfl

theorem setLen_byte_lt (f : ByteBuf) (n k : Nat) (h1 : k < n) (h2 : k < f.size) :
    (setLen f n).byte k = f.byte k := by
  simp only [setLen]
  rw [if_pos (by omega)]

theorem zeros_byte (n k : Nat) : (zeros n).byte k = 0 := rfl

theorem zeros_size (n : Nat) : (zeros n).size = n := rfl

/-! ## Helper lemmas: big-endian 32-bit values -/

theorem toBE32_length (n : Nat) : (toBE32 n).length = 4 := rfl

theorem fromBE32_toBE32 (n : Nat) (h : n < 2 ^ 32) : fromBE32 (toBE32 n) = n := by
  simp only [toBE32, fromBE32, List.foldl]
  omega

theorem fromBE32_zero : fromBE32 [0, 0, 0, 0] = 0 := rfl

theorem toBE32_zero : toBE32 0 = [0, 0, 0, 0] := rfl

/-! ## Helper lemmas: bit manipulation -/

theorem div_pow_add (a b k i : Nat) (hik : i ≤ k) :
    (a * 2 ^ k + b) / 2 ^ i = a * 2 ^ (k - i) + b / 2 ^ i := by
  have h : 2 ^ k = 2 ^ i * 2 ^ (k - i) := by rw [← pow_add]; congr 1; omega
  rw [h, ← Nat.mul_assoc, Nat.mul_comm a (2 ^ i), Nat.mul_assoc,
    Nat.add_comm, Nat.add_mul_div_left _ _ (Nat.pos_pow_of_pos i (by norm_num)), Nat.add_comm]

theorem testBit_mul_pow_add (a b k i : Nat) (hb : b < 2 ^ k) :
    Nat.testBit (a * 2 ^ k + b) i =
      if i < k then Nat.testBit b i else Nat.testBit a (i - k) := by
  rcases Nat.lt_or_ge i k with hik | hik
  · simp only [hik, if_pos]
    rw [Nat.testBit_to_div_mod, Nat.testBit_to_div_mod]
    rw [div_pow_add a b k i (Nat.le_of_lt hik)]
    obtain ⟨m, hm⟩ := dvd_pow_self 2 (show k - i ≠ 0 by omega)
    rw [hm, show a * (2 * m) = 2 * (a * m) by ring, Nat.mul_add_mod]
  · simp only [show ¬(i < k) by omega, if_neg, not_false_iff]
    rw [Nat.testBit_to_div_mod, Nat.testBit_to_div_mod]
    have h1 : (a * 2 ^ k + b) / 2 ^ i = a / 2 ^ (i - k) := by
      have h : (2 : Nat) ^ i = 2 ^ k * 2 ^ (i - k) := by rw [← pow_add]; congr 1; omega
      rw [h, ← Nat.div_div_eq_div_mul]
      have h2 : (a * 2 ^ k + b) / 2 ^ k = a := by
        rw [Nat.add_comm, Nat.mul_comm,
          Nat.add_mul_div_left _ _ (Nat.pos_pow_of_pos k (by norm_num)),
          Nat.div_eq_of_lt hb]
        omega
      rw [h2]
    rw [h1]

theorem lor_mul_pow_add (a b k : Nat) (hb : b < 2 ^ k) :
    Nat.lor (a * 2 ^ k) b = a * 2 ^ k + b := by
  show (a * 2 ^ k) ||| b = a * 2 ^ k + b
  apply Nat.eq_of_testBit_eq
  intro i
  rw [Nat.testBit_lor, testBit_mul_pow_add a b k i hb]
  have hmul : ∀ j, Nat.testBit (a * 2 ^ k) j =
      if j < k then false else Nat.testBit a (j - k) := by
    intro j
    rw [show a * 2 ^ k = a * 2 ^ k + 0 by omega,
      testBit_mul_pow_add a 0 k j (Nat.pos_pow_of_pos k (by norm_num))]
    simp [Nat.testBit]
  rw [hmul i]
  rcases Nat.lt_or_ge i k with hik | hik
  · simp [hik]
  · have hfb : Nat.testBit b i = false :=
      Nat.testBit_lt_two_pow (Nat.lt_of_lt_of_le hb (Nat.pow_le_pow_right (by norm_num) hik))
    simp [show ¬(i < k) by omega, hfb]

theorem land_two_pow_sub_one (n k : Nat) : Nat.land n (2 ^ k - 1) = n % 2 ^ k := by
  show n &&& (2 ^ k - 1) = n % 2 ^ k
  apply Nat.eq_of_testBit_eq
  intro i
  rw [Nat.testBit_land, Nat.testBit_mod_two_pow, Nat.testBit_two_pow_sub_one]
  cases Nat.decLt i k with
  | isTrue h => simp [h]
  | isFalse h => simp [h]

/-- The packed field for in-range operands is plain arithmetic. -/
theorem entryField_eq (si sc : Nat) (h1 : si < 2 ^ 24) (h2 : sc < 256) :
    entryField si sc = si * 256 + sc := by
  have hsh : si <<< 8 = si * 256 := by
    rw [Nat.shiftLeft_eq]
  have hlt : si * 256 < 2 ^ 32 := by omega
  unfold entryField
  rw [hsh, Nat.mod_eq_of_lt hlt,
    show si * 256 = si * 2 ^ 8 by norm_num,
    lor_mul_pow_add si sc 8 (by norm_num [h2])]

/-- Decoding the packed field recovers the sector index. -/
theorem decode_sector_index (si sc : Nat) (h1 : si < 2 ^ 24) (h2 : sc < 256) :
    Nat.land ((si * 256 + sc) >>> 8) 0xFFFFFF = si := by
  rw [Nat.shiftRight_eq_div_pow]
  have hdiv : (si * 256 + sc) / 2 ^ 8 = si := by
    norm_num
    omega
  rw [hdiv, show (0xFFFFFF : Nat) = 2 ^ 24 - 1 by norm_num, land_two_pow_sub_one,
    Nat.mod_eq_of_lt h1]


/-- Decoding the packed field recovers the sector count. -/
theorem decode_sector_count (si sc : Nat) (h2 : sc < 256) :
    Nat.land (si * 256 + sc) 0xFF = sc := by
  rw [show (0xFF : Nat) = 2 ^ 8 - 1 by norm_num, land_two_pow_sub_one]
  have : (si * 256 + sc) % 2 ^ 8 = sc := by
    norm_num
    omega
  rw [this]

/-! ## Writer layout lemmas -/

/-- Sector count allocated for a chunk payload (`ceil(framed_len / 4096)`). -/
def scOf (c : Codec) (d : List Nat) : Nat :=
  ((RegionFileWriter.create_chunk_data_stream c d).length + SECTOR_SIZE - 1) / SECTOR_SIZE

theorem framed_length (c : Codec) (d : List Nat) :
    (RegionFileWriter.create_chunk_data_stream c d).length =
      5 + (c.zlibCompress d).length := by
  simp [RegionFileWriter.create_chunk_data_stream,
    RegionFileWriter.create_compressed_chunk_payload, toBE32]
  omega

theorem scOf_pos (c : Codec) (d : List Nat) : 1 ≤ scOf c d := by
  have h := framed_length c d
  unfold scOf SECTOR_SIZE at *
  omega

/-- `scOf` expressed through the compressed length (kept general so the
kernel never evaluates it at huge concrete inputs). -/
theorem scOf_formula (c : Codec) (d : List Nat) :
    scOf c d = (5 + (c.zlibCompress d).length + SECTOR_SIZE - 1) / SECTOR_SIZE := by
  unfold scOf
  rw [framed_length]

theorem framed_le_sectors (c : Codec) (d : List Nat) :
    (RegionFileWriter.create_chunk_data_stream c d).length ≤ scOf c d * SECTOR_SIZE := by
  unfold scOf SECTOR_SIZE
  omega

theorem slotIndexZ_lt (p : ChunkPos) : slotIndexZ p < 1024 := by
  unfold slotIndexZ
  have hx := Int.tmod_lt_of_pos p.x (show (0 : Int) < 32 by norm_num)
  have hz := Int.tmod_lt_of_pos p.z (show (0 : Int) < 32 by norm_num)
  omega

theorem slotIndexZ_inRange (p : ChunkPos) (hx0 : 0 ≤ p.x) (hx : p.x < 32)
    (hz0 : 0 ≤ p.z) (hz : p.z < 32) :
    slotIndexZ p = p.x + p.z * 32 := by
  unfold slotIndexZ
  rw [Int.tmod_eq_of_lt hx0 hx, Int.tmod_eq_of_lt hz0 hz]

/-- State invariant maintained by the writer. -/
structure WriterInv (w : RegionFileWriter) : Prop where
  size_eq : w.file.size = w.used_sectors * SECTOR_SIZE
  cap_eq : w.capacity = w.file.size
  hm_size : w.header_map.size = INITIAL_CAPACITY
  used_ge : 2 ≤ w.used_sectors

theorem writerInv_create : WriterInv RegionFileWriter.create := by
  constructor <;> rfl

/-- The complete effect of one successful `add_chunk` on the writer state. -/
theorem add_chunk_ok (c : Codec) (w : RegionFileWriter) (ch : Chunk)
    (hw : WriterInv w) (hidx : 0 ≤ slotIndexZ ch.position) :
    ∃ w', w.add_chunk c ch = .ok w' ∧
      WriterInv w' ∧
      w'.used_sectors = w.used_sectors + scOf c ch.data ∧
      (∀ k, k < w.file.size → w'.file.byte k = w.file.byte k) ∧
      seg w'.file (w.used_sectors * SECTOR_SIZE)
          (RegionFileWriter.create_chunk_data_stream c ch.data).length =
        RegionFileWriter.create_chunk_data_stream c ch.data ∧
      (∀ k, k < INITIAL_CAPACITY →
        (k < (slotIndexZ ch.position).toNat * 4 ∨
         (slotIndexZ ch.position).toNat * 4 + 4 ≤ k) →
        w'.header_map.byte k = w.header_map.byte k) ∧
      seg w'.header_map ((slotIndexZ ch.position).toNat * 4) 4 =
        toBE32 (entryField (w.used_sectors % 2 ^ 32) (scOf c ch.data % 2 ^ 32)) := by
  classical
  set data := RegionFileWriter.create_chunk_data_stream c ch.data with hdata
  set sc := scOf c ch.data with hsc
  set si := w.used_sectors with hsi
  have hsc1 : 1 ≤ sc := scOf_pos c ch.data
  have hdlen : data.length ≤ sc * SECTOR_SIZE := framed_le_sectors c ch.data
  have hscdef : sc = (data.length + SECTOR_SIZE - 1) / SECTOR_SIZE := rfl
  -- the write_data result
  have hgrow : w.capacity < (si + sc) * SECTOR_SIZE := by
    rw [hw.cap_eq, hw.size_eq]
    have : 0 < SECTOR_SIZE := by norm_num [SECTOR_SIZE]
    have := hsc1
    nlinarith
  have hwd : w.write_data si sc data =
      { w with
        file := writeAt (setLen w.file ((si + sc) * SECTOR_SIZE)) (si * SECTOR_SIZE) data
        capacity := (si + sc) * SECTOR_SIZE } := by
    unfold RegionFileWriter.write_data
    simp only [hgrow, if_pos]
  set f1 := writeAt (setLen w.file ((si + sc) * SECTOR_SIZE)) (si * SECTOR_SIZE) data
    with hf1
  have hf1size : f1.size = (si + sc) * SECTOR_SIZE := by
    rw [hf1, writeAt_size, setLen_size]
    have h1 : si * SECTOR_SIZE + data.length ≤ (si + sc) * SECTOR_SIZE := by
      have : (si + sc) * SECTOR_SIZE = si * SECTOR_SIZE + sc * SECTOR_SIZE := by ring
      omega
    omega
  -- slot index facts
  set idx := (slotIndexZ ch.position).toNat with hidxdef
  have hidxlt : idx < 1024 := by
    have h1 := slotIndexZ_lt ch.position
    omega
  -- write_entry succeeds
  have hentry : ∀ (v : RegionFileWriter), v.write_entry
      { position := ch.position
        sector_index := si % 2 ^ 32
        sector_count := sc % 2 ^ 32 } =
      .ok { v with header_map :=
              (writeAt v.header_map (idx * 4)
                (toBE32 (entryField (si % 2 ^ 32) (sc % 2 ^ 32)))) } := by
    intro v
    unfold RegionFileWriter.write_entry
    simp only [not_lt.mpr hidx, if_neg, not_false_iff]
  -- assemble the add_chunk result
  refine ⟨{ file := f1
            header_map :=
              (writeAt w.header_map (idx * 4)
                (toBE32 (entryField (si % 2 ^ 32) (sc % 2 ^ 32))))
            used_sectors := si + sc
            capacity := (si + sc) * SECTOR_SIZE }, ?_, ?_, ?_, ?_, ?_, ?_, ?_⟩
  · show w.add_chunk c ch = _
    simp only [RegionFileWriter.add_chunk]
    rw [← hdata, ← hscdef, ← hsi, hwd, hentry]
  · constructor
    · show f1.size = (si + sc) * SECTOR_SIZE
      exact hf1size
    · show (si + sc) * SECTOR_SIZE = f1.size
      exact hf1size.symm
    · show (writeAt w.header_map (idx * 4) (toBE32 (entryField _ _))).size = INITIAL_CAPACITY
      rw [writeAt_size, hw.hm_size, toBE32_length]
      have : idx * 4 + 4 ≤ INITIAL_CAPACITY := by
        unfold INITIAL_CAPACITY HEADER_SIZE ENTRY_COUNT ENTRY_LENGTH
        omega
      omega
    · show 2 ≤ si + sc
      have := hw.used_ge
      omega
  · show si + sc = w.used_sectors + sc
    rw [hsi]
  · -- old file bytes preserved
    intro k hk
    show f1.byte k = w.file.byte k
    have hk2 : k < si * SECTOR_SIZE := by
      rw [hw.size_eq, ← hsi] at hk
      exact hk
    rw [hf1, writeAt_byte_lt _ _ _ _ hk2, setLen_byte_lt]
    · have hle : si * SECTOR_SIZE ≤ (si + sc) * SECTOR_SIZE :=
        Nat.mul_le_mul_right _ (by omega)
      omega
    · rw [hw.size_eq, ← hsi]
      exact hk2
    · rw [setLen_size]
      have hle : si * SECTOR_SIZE ≤ (si + sc) * SECTOR_SIZE :=
        Nat.mul_le_mul_right _ (by omega)
      omega
  · -- the framed data sits at its sector offset
    show seg f1 (si * SECTOR_SIZE) data.length = data
    rw [hf1]
    exact seg_writeAt_self _ _ _
  · -- header bytes outside the entry preserved
    intro k hcap hk
    show (writeAt w.header_map (idx * 4) (toBE32 (entryField _ _))).byte k =
      w.header_map.byte k
    have hks : k < w.header_map.size := by rw [hw.hm_size]; exact hcap
    rcases hk with hk | hk
    · exact writeAt_byte_lt _ _ _ _ hk hks
    · exact writeAt_byte_ge _ _ _ _ (by rw [toBE32_length]; omega) hks
  · -- the new header entry
    show seg (writeAt w.header_map (idx * 4) (toBE32 (entryField _ _))) (idx * 4) 4 =
      toBE32 (entryField (si % 2 ^ 32) (sc % 2 ^ 32))
    have h4 : (4 : Nat) = (toBE32 (entryField (si % 2 ^ 32) (sc % 2 ^ 32))).length := by
      rw [toBE32_length]
    rw [h4]
    exact seg_writeAt_self _ _ _

/-- `add_chunk` at a negative slot index panics inside `write_entry`. -/
theorem add_chunk_err (c : Codec) (w : RegionFileWriter) (ch : Chunk)
    (hidx : slotIndexZ ch.position < 0) :
    w.add_chunk c ch = .error "range start index out of range for slice" := by
  simp only [RegionFileWriter.add_chunk, RegionFileWriter.write_entry]
  rw [if_pos hidx]

/-- Writer states reachable by `create` followed by successful `add_chunk`s. -/
inductive Reachable (c : Codec) : RegionFileWriter → Prop where
  | create : Reachable c RegionFileWriter.create
  | step {w : RegionFileWriter} {ch : Chunk} {w' : RegionFileWriter} :
      Reachable c w → w.add_chunk c ch = .ok w' → Reachable c w'

theorem add_chunk_inv {c : Codec} {w : RegionFileWriter} {ch : Chunk}
    {w' : RegionFileWriter} (hw : WriterInv w) (h : w.add_chunk c ch = .ok w') :
    WriterInv w' := by
  by_cases hidx : 0 ≤ slotIndexZ ch.position
  · obtain ⟨w2, heq, hinv, -, -, -, -, -⟩ := add_chunk_ok c w ch hw hidx
    rw [heq] at h
    cases h
    exact hinv
  · rw [add_chunk_err c w ch (by omega)] at h
    cases h

theorem reachable_inv {c : Codec} {w : RegionFileWriter} (h : Reachable c w) :
    WriterInv w := by
  induction h with
  | create => exact writerInv_create
  | step _ heq ih => exact add_chunk_inv ih heq

/-! ## Reader decode lemmas -/

theorem read_entry_oob (F : ByteBuf) (j : Nat) (h : j * 4 + 4 > F.size) :
    RegionFile.read_entry ⟨F⟩ j = .error "range end index out of range for slice" := by
  unfold RegionFile.read_entry
  simp only [REGION_LOCATION_OFFSET, Nat.zero_add]
  rw [if_pos h]

theorem read_entry_absent (F : ByteBuf) (j : Nat) (hj : j * 4 + 4 ≤ F.size)
    (hhdr : seg F (j * 4) 4 = [0, 0, 0, 0]) :
    RegionFile.read_entry ⟨F⟩ j = .ok none := by
  unfold RegionFile.read_entry
  simp only [REGION_LOCATION_OFFSET, Nat.zero_add]
  rw [if_neg (by omega)]
  show (if fromBE32 (seg F (j * 4) 4) = 0 then _ else _) = _
  rw [hhdr]
  rfl

theorem read_entry_present (F : ByteBuf) (j si sc : Nat) (hj : j * 4 + 4 ≤ F.size)
    (hhdr : seg F (j * 4) 4 = toBE32 (si * 256 + sc))
    (h24 : si < 2 ^ 24) (h8 : sc < 256) (hpos : 0 < si * 256 + sc) :
    RegionFile.read_entry ⟨F⟩ j = .ok (some
      { position := { x := Int.ofNat (j % 32), z := Int.ofNat (j / 32) }
        sector_index := si
        sector_count := sc }) := by
  unfold RegionFile.read_entry
  simp only [REGION_LOCATION_OFFSET, Nat.zero_add]
  rw [if_neg (by omega)]
  have hfield32 : si * 256 + sc < 2 ^ 32 := by omega
  show (if fromBE32 (seg F (j * 4) 4) = 0 then _ else _) = _
  rw [hhdr, fromBE32_toBE32 _ hfield32, if_neg (by omega)]
  rw [decode_sector_index si sc h24 h8, decode_sector_count si sc h8]

/-- Successful decode of a well-formed framed chunk at its sector range. -/
theorem get_chunk_from_entry_ok (c : Codec) (F : ByteBuf) (e : RegionEntry)
    (d : List Nat)
    (hsize : (e.sector_index + e.sector_count) * SECTOR_SIZE ≤ F.size)
    (hseg : seg F (e.sector_index * SECTOR_SIZE)
        (RegionFileWriter.create_chunk_data_stream c d).length =
      RegionFileWriter.create_chunk_data_stream c d)
    (hfit : (RegionFileWriter.create_chunk_data_stream c d).length ≤
      e.sector_count * SECTOR_SIZE)
    (hlen32 : 1 + (c.zlibCompress d).length < 2 ^ 32)
    (hrt : c.zlibDecompress (c.zlibCompress d) = some d) :
    RegionFile.get_chunk_from_entry ⟨F⟩ c e =
      .chunk { data := d, position := e.position } := by
  have hflen : (RegionFileWriter.create_chunk_data_stream c d).length =
      5 + (c.zlibCompress d).length := framed_length c d
  have hpay : RegionFileWriter.create_chunk_data_stream c d =
      toBE32 (1 + (c.zlibCompress d).length) ++
        (CompressionMode.Zlib.to_int :: c.zlibCompress d) := by
    unfold RegionFileWriter.create_chunk_data_stream
      RegionFileWriter.create_compressed_chunk_payload
    simp
    rw [Nat.add_comm]
  have hclen : (1 : Nat) + (c.zlibCompress d).length ≤ e.sector_count * SECTOR_SIZE - 4 := by
    omega
  have hlen5 : 5 ≤ e.sector_count * SECTOR_SIZE := by omega
  have hbound : ¬ (e.sector_index * SECTOR_SIZE + e.sector_count * SECTOR_SIZE > F.size) := by
    have h : (e.sector_index + e.sector_count) * SECTOR_SIZE =
        e.sector_index * SECTOR_SIZE + e.sector_count * SECTOR_SIZE := by ring
    omega
  have htake4 : (seg F (e.sector_index * SECTOR_SIZE) (e.sector_count * SECTOR_SIZE)).take 4 =
      toBE32 (1 + (c.zlibCompress d).length) := by
    rw [seg_take, Nat.min_eq_left (by omega)]
    have h1 := congrArg (List.take 4) hseg
    rw [seg_take, Nat.min_eq_left (by omega), hpay,
      List.take_left' (toBE32_length _)] at h1
    exact h1
  have hstream :
      ((seg F (e.sector_index * SECTOR_SIZE) (e.sector_count * SECTOR_SIZE)).drop 4).take
          (1 + (c.zlibCompress d).length) =
        CompressionMode.Zlib.to_int :: c.zlibCompress d := by
    rw [seg_drop, seg_take, Nat.min_eq_left (by omega)]
    have h1 := congrArg (List.drop 4) hseg
    rw [seg_drop,
      show (RegionFileWriter.create_chunk_data_stream c d).length - 4 =
        1 + (c.zlibCompress d).length from by omega] at h1
    rw [hpay, List.drop_left' (toBE32_length _)] at h1
    exact h1
  simp only [RegionFile.get_chunk_from_entry]
  rw [if_neg hbound, if_neg (by omega), htake4, fromBE32_toBE32 _ hlen32, hstream]
  show (match CompressionMode.from_int CompressionMode.Zlib.to_int with
    | none => SlotResult.panic "Invalid compression type"
    | some .Gzip => (match c.gzipDecompress (c.zlibCompress d) with
        | some dd => SlotResult.chunk { data := dd, position := e.position }
        | none => SlotResult.ioError .decompressFailed)
    | some .Zlib => (match c.zlibDecompress (c.zlibCompress d) with
        | some dd => SlotResult.chunk { data := dd, position := e.position }
        | none => SlotResult.ioError .decompressFailed)
    | some .Uncompressed =>
        SlotResult.chunk { data := c.zlibCompress d, position := e.position }) = _
  show (match c.zlibDecompress (c.zlibCompress d) with
    | some dd => SlotResult.chunk { data := dd, position := e.position }
    | none => SlotResult.ioError .decompressFailed) = _
  rw [hrt]

/-- A slot whose header entry is absent. -/
theorem get_chunk_from_index_absent (c : Codec) (F : ByteBuf) (j : Nat)
    (hj : j * 4 + 4 ≤ F.size) (hhdr : seg F (j * 4) 4 = [0, 0, 0, 0]) :
    RegionFile.get_chunk_from_index ⟨F⟩ c j = .absent := by
  unfold RegionFile.get_chunk_from_index
  rw [read_entry_absent F j hj hhdr]

/-- A slot whose header entry lies past the end of the map panics. -/
theorem get_chunk_from_index_oob (c : Codec) (F : ByteBuf) (j : Nat)
    (hj : j * 4 + 4 > F.size) :
    RegionFile.get_chunk_from_index ⟨F⟩ c j =
      .panic "range end index out of range for slice" := by
  unfold RegionFile.get_chunk_from_index
  rw [read_entry_oob F j hj]

/-- A populated slot with a well-formed zlib-framed payload decodes to its
chunk, positioned at `(index % 32, index / 32)`. -/
theorem get_chunk_from_index_present (c : Codec) (F : ByteBuf) (j si sc : Nat)
    (d : List Nat)
    (hj : j * 4 + 4 ≤ F.size)
    (hhdr : seg F (j * 4) 4 = toBE32 (si * 256 + sc))
    (hsi2 : 2 ≤ si) (h24 : si < 2 ^ 24) (h8 : sc < 256)
    (hsize : (si + sc) * SECTOR_SIZE ≤ F.size)
    (hseg : seg F (si * SECTOR_SIZE)
        (RegionFileWriter.create_chunk_data_stream c d).length =
      RegionFileWriter.create_chunk_data_stream c d)
    (hfit : (RegionFileWriter.create_chunk_data_stream c d).length ≤ sc * SECTOR_SIZE)
    (hlen32 : 1 + (c.zlibCompress d).length < 2 ^ 32)
    (hrt : c.zlibDecompress (c.zlibCompress d) = some d) :
    RegionFile.get_chunk_from_index ⟨F⟩ c j =
      .chunk { data := d
               position := { x := Int.ofNat (j % 32), z := Int.ofNat (j / 32) } } := by
  unfold RegionFile.get_chunk_from_index
  rw [read_entry_present F j si sc hj hhdr h24 h8 (by omega)]
  exact get_chunk_from_entry_ok c F _ d hsize hseg hfit hlen32 hrt

/-! ## Stream lemmas -/

theorem streamFrom_getElem? (c : Codec) (rf : RegionFile) (n : Nat) :
    ∀ (i k : Nat),
    (∀ j, j < n → ∀ m, rf.get_chunk_from_index c (i + j) ≠ .panic m) →
    (streamFrom c rf i n)[k]? =
      if k < n then some (rf.get_chunk_from_index c (i + k)) else none := by
  induction n with
  | zero => intro i k _; simp [streamFrom]
  | succ n ih =>
    intro i k hnp
    cases hslot : rf.get_chunk_from_index c i with
    | panic m => exact absurd hslot (by simpa using hnp 0 (by omega) m)
    | absent =>
      simp only [streamFrom, hslot]
      cases k with
      | zero => simp [hslot]
      | succ k2 =>
        simp only [List.getElem?_cons_succ]
        rw [ih (i + 1) k2 (by
          intro j hj m
          have := hnp (j + 1) (by omega) m
          simpa [show i + (j + 1) = i + 1 + j by omega] using this)]
        by_cases hk : k2 < n
        · rw [if_pos hk, if_pos (by omega), show i + 1 + k2 = i + (k2 + 1) by omega]
        · rw [if_neg hk, if_neg (by omega)]
    | chunk ch =>
      simp only [streamFrom, hslot]
      cases k with
      | zero => simp [hslot]
      | succ k2 =>
        simp only [List.getElem?_cons_succ]
        rw [ih (i + 1) k2 (by
          intro j hj m
          have := hnp (j + 1) (by omega) m
          simpa [show i + (j + 1) = i + 1 + j by omega] using this)]
        by_cases hk : k2 < n
        · rw [if_pos hk, if_pos (by omega), show i + 1 + k2 = i + (k2 + 1) by omega]
        · rw [if_neg hk, if_neg (by omega)]
    | ioError e =>
      simp only [streamFrom, hslot]
      cases k with
      | zero => simp [hslot]
      | succ k2 =>
        simp only [List.getElem?_cons_succ]
        rw [ih (i + 1) k2 (by
          intro j hj m
          have := hnp (j + 1) (by omega) m
          simpa [show i + (j + 1) = i + 1 + j by omega] using this)]
        by_cases hk : k2 < n
        · rw [if_pos hk, if_pos (by omega), show i + 1 + k2 = i + (k2 + 1) by omega]
        · rw [if_neg hk, if_neg (by omega)]

theorem streamFrom_length (c : Codec) (rf : RegionFile) (n : Nat) :
    ∀ (i : Nat),
    (∀ j, j < n → ∀ m, rf.get_chunk_from_index c (i + j) ≠ .panic m) →
    (streamFrom c rf i n).length = n := by
  induction n with
  | zero => intro i _; rfl
  | succ n ih =>
    intro i hnp
    cases hslot : rf.get_chunk_from_index c i with
    | panic m => exact absurd hslot (by simpa using hnp 0 (by omega) m)
    | absent =>
      simp only [streamFrom, hslot, List.length_cons]
      rw [ih (i + 1) (by
        intro j hj m
        have := hnp (j + 1) (by omega) m
        simpa [show i + (j + 1) = i + 1 + j by omega] using this)]
    | chunk ch =>
      simp only [streamFrom, hslot, List.length_cons]
      rw [ih (i + 1) (by
        intro j hj m
        have := hnp (j + 1) (by omega) m
        simpa [show i + (j + 1) = i + 1 + j by omega] using this)]
    | ioError e =>
      simp only [streamFrom, hslot, List.length_cons]
      rw [ih (i + 1) (by
        intro j hj m
        have := hnp (j + 1) (by omega) m
        simpa [show i + (j + 1) = i + 1 + j by omega] using this)]

/-- A panic at relative slot `p` truncates the stream right after it. -/
theorem streamFrom_panicAt (c : Codec) (rf : RegionFile) (p : Nat) :
    ∀ (i n : Nat) (m : String), p < n →
    rf.get_chunk_from_index c (i + p) = .panic m →
    (∀ j, j < p → ∀ m2, rf.get_chunk_from_index c (i + j) ≠ .panic m2) →
    streamFrom c rf i n = streamFrom c rf i p ++ [.panic m] := by
  induction p with
  | zero =>
    intro i n m hn hp _
    cases n with
    | zero => omega
    | succ n2 =>
      simp only [Nat.add_zero] at hp
      simp [streamFrom, hp]
  | succ p ih =>
    intro i n m hn hp hnp
    cases n with
    | zero => omega
    | succ n2 =>
      have h0 : ∀ m2, rf.get_chunk_from_index c i ≠ .panic m2 := by
        intro m2
        simpa using hnp 0 (by omega) m2
      have hshift : ∀ j, j < p → ∀ m2,
          rf.get_chunk_from_index c (i + 1 + j) ≠ .panic m2 := by
        intro j hj m2
        have := hnp (j + 1) (by omega) m2
        simpa [show i + (j + 1) = i + 1 + j by omega] using this
      have hp2 : rf.get_chunk_from_index c (i + 1 + p) = .panic m := by
        rw [show i + 1 + p = i + (p + 1) by omega]
        exact hp
      have hrec := ih (i + 1) n2 m (by omega) hp2 hshift
      cases hslot : rf.get_chunk_from_index c i with
      | panic m2 => exact absurd hslot (h0 m2)
      | absent => simp only [streamFrom, hslot, hrec, List.cons_append]
      | chunk ch => simp only [streamFrom, hslot, hrec, List.cons_append]
      | ioError e => simp only [streamFrom, hslot, hrec, List.cons_append]

/-! ## Write-run layout -/

/-- Total sector count of a batch of chunks. -/
def totalSc (c : Codec) (cs : List Chunk) : Nat :=
  (cs.map (fun ch => scOf c ch.data)).sum

/-- The nonnegative slot index of a position. -/
def slotNat (p : ChunkPos) : Nat :=
  (slotIndexZ p).toNat

theorem totalSc_nil (c : Codec) : totalSc c [] = 0 := rfl

theorem totalSc_cons (c : Codec) (ch : Chunk) (cs : List Chunk) :
    totalSc c (ch :: cs) = scOf c ch.data + totalSc c cs := by
  simp [totalSc]

theorem slotNat_lt (p : ChunkPos) : slotNat p < 1024 := by
  unfold slotNat
  have := slotIndexZ_lt p
  omega

/-- Full description of a `create`-then-`add_chunk` run: the final state,
frame conditions, and the placement of every written chunk. -/
theorem writeAll_spec (c : Codec) (cs : List Chunk) :
    ∀ (w : RegionFileWriter), WriterInv w →
    (∀ ch ∈ cs, 0 ≤ slotIndexZ ch.position) →
    ∃ w', writeAll c w cs = .ok w' ∧
      WriterInv w' ∧
      w'.used_sectors = w.used_sectors + totalSc c cs ∧
      (∀ k, k < w.file.size → w'.file.byte k = w.file.byte k) ∧
      (∀ k, k < INITIAL_CAPACITY →
        (∀ ch ∈ cs, k < slotNat ch.position * 4 ∨ slotNat ch.position * 4 + 4 ≤ k) →
        w'.header_map.byte k = w.header_map.byte k) ∧
      (∀ pre ch post, cs = pre ++ ch :: post →
        (seg w'.file ((w.used_sectors + totalSc c pre) * SECTOR_SIZE)
            (RegionFileWriter.create_chunk_data_stream c ch.data).length =
          RegionFileWriter.create_chunk_data_stream c ch.data) ∧
        ((∀ ch2 ∈ post, slotNat ch2.position ≠ slotNat ch.position) →
          seg w'.header_map (slotNat ch.position * 4) 4 =
            toBE32 (entryField ((w.used_sectors + totalSc c pre) % 2 ^ 32)
              (scOf c ch.data % 2 ^ 32)))) := by
  induction cs with
  | nil =>
    intro w hw _
    refine ⟨w, rfl, hw, by simp [totalSc_nil], fun k _ => rfl, fun k _ _ => rfl, ?_⟩
    intro pre ch post hdec
    exact absurd hdec (by cases pre <;> simp)
  | cons ch rest ih =>
    intro w hw hpos
    have hidx : 0 ≤ slotIndexZ ch.position := hpos ch (by simp)
    obtain ⟨w1, heq1, hinv1, hused1, hfile1, hfseg1, hhm1, hhseg1⟩ :=
      add_chunk_ok c w ch hw hidx
    obtain ⟨w', heq2, hinv2, hused2, hfile2, hhm2, hplace2⟩ :=
      ih w1 hinv1 (fun ch2 h2 => hpos ch2 (by simp [h2]))
    have hw1size : w1.file.size = (w.used_sectors + scOf c ch.data) * SECTOR_SIZE := by
      rw [hinv1.size_eq, hused1]
    have hwsize_le : w.file.size ≤ w1.file.size := by
      rw [hw.size_eq, hw1size]
      exact Nat.mul_le_mul_right _ (by omega)
    refine ⟨w', ?_, hinv2, ?_, ?_, ?_, ?_⟩
    · simp only [writeAll, heq1]
      exact heq2
    · rw [hused2, hused1, totalSc_cons]
      ring
    · intro k hk
      rw [hfile2 k (by omega), hfile1 k hk]
    · intro k hcap hdisj
      rw [hhm2 k hcap (fun ch2 h2 => hdisj ch2 (by simp [h2])),
        hhm1 k hcap (hdisj ch (by simp))]
    · intro pre ch0 post hdec
      cases pre with
      | nil =>
        simp only [List.nil_append, List.cons.injEq] at hdec
        obtain ⟨hch0, hpost⟩ := hdec
        subst hch0
        subst hpost
        constructor
        · -- the chunk written in this step, preserved by the rest of the run
          rw [totalSc_nil, Nat.add_zero]
          have hofs : w.used_sectors * SECTOR_SIZE +
              (RegionFileWriter.create_chunk_data_stream c ch.data).length ≤
              w1.file.size := by
            rw [hw1size]
            have h1 := framed_le_sectors c ch.data
            have h2 : (w.used_sectors + scOf c ch.data) * SECTOR_SIZE =
                w.used_sectors * SECTOR_SIZE + scOf c ch.data * SECTOR_SIZE := by ring
            omega
          have hcongr : seg w'.file (w.used_sectors * SECTOR_SIZE)
              (RegionFileWriter.create_chunk_data_stream c ch.data).length =
            seg w1.file (w.used_sectors * SECTOR_SIZE)
              (RegionFileWriter.create_chunk_data_stream c ch.data).length := by
            apply seg_congr
            intro k hk1 hk2
            exact hfile2 k (by omega)
          rw [hcongr]
          exact hfseg1
        · -- its header entry, preserved because no later chunk reuses the slot
          intro hnodup
          rw [totalSc_nil, Nat.add_zero]
          have hidx4 : slotNat ch.position * 4 + 4 ≤ INITIAL_CAPACITY := by
            have := slotNat_lt ch.position
            unfold INITIAL_CAPACITY HEADER_SIZE ENTRY_COUNT ENTRY_LENGTH
            omega
          have hcongr : seg w'.header_map (slotNat ch.position * 4) 4 =
              seg w1.header_map (slotNat ch.position * 4) 4 := by
            apply seg_congr
            intro k hk1 hk2
            refine hhm2 k (by omega) ?_
            intro ch2 h2
            have hne := hnodup ch2 h2
            have h1 := slotNat_lt ch2.position
            rcases Nat.lt_or_ge (slotNat ch2.position) (slotNat ch.position) with hlt | hge
            · right
              unfold slotNat at *
              omega
            · left
              unfold slotNat at *
              omega
          rw [hcongr]
          exact hhseg1
      | cons chh pre' =>
        simp only [List.cons_append, List.cons.injEq] at hdec
        obtain ⟨hchh, hrest⟩ := hdec
        subst hchh
        have := hplace2 pre' ch0 post hrest
        rw [totalSc_cons]
        constructor
        · have h1 := this.1
          rw [show w.used_sectors + (scOf c ch.data + totalSc c pre') =
            w1.used_sectors + totalSc c pre' from by rw [hused1]; ring] at *
          exact h1
        · intro hnodup
          have h2 := this.2 hnodup
          rw [show w.used_sectors + (scOf c ch.data + totalSc c pre') =
            w1.used_sectors + totalSc c pre' from by rw [hused1]; ring]
          exact h2

theorem totalSc_append (c : Codec) (l1 l2 : List Chunk) :
    totalSc c (l1 ++ l2) = totalSc c l1 + totalSc c l2 := by
  simp [totalSc]

theorem close_size (w : RegionFileWriter) : w.close.size = w.file.size := rfl

theorem close_byte_lt (w : RegionFileWriter) (k : Nat) (h : k < INITIAL_CAPACITY) :
    w.close.byte k = w.header_map.byte k := by
  simp only [RegionFileWriter.close]
  rw [if_pos h]

theorem close_byte_ge (w : RegionFileWriter) (k : Nat) (h : INITIAL_CAPACITY ≤ k) :
    w.close.byte k = w.file.byte k := by
  simp only [RegionFileWriter.close]
  rw [if_neg (by omega)]

theorem INITIAL_CAPACITY_eq : INITIAL_CAPACITY = 8192 := rfl

theorem SECTOR_SIZE_eq : SECTOR_SIZE = 4096 := rfl

theorem slotNat_inRange (p : ChunkPos) (hx0 : 0 ≤ p.x) (hx : p.x < 32)
    (hz0 : 0 ≤ p.z) (hz : p.z < 32) :
    slotNat p = p.x.toNat + p.z.toNat * 32 := by
  unfold slotNat
  rw [slotIndexZ_inRange p hx0 hx hz0 hz]
  omega

theorem slotNat_inj (p q : ChunkPos) (hpx0 : 0 ≤ p.x) (hpx : p.x < 32)
    (hpz0 : 0 ≤ p.z) (hpz : p.z < 32) (hqx0 : 0 ≤ q.x) (hqx : q.x < 32)
    (hqz0 : 0 ≤ q.z) (hqz : q.z < 32) (h : slotNat p = slotNat q) : p = q := by
  rw [slotNat_inRange p hpx0 hpx hpz0 hpz, slotNat_inRange q hqx0 hqx hqz0 hqz] at h
  cases p with
  | mk px pz =>
    cases q with
    | mk qx qz =>
      simp only [ChunkPos.mk.injEq]
      simp only at hpx0 hpx hpz0 hpz hqx0 hqx hqz0 hqz h
      omega

theorem create_used : RegionFileWriter.create.used_sectors = 2 := rfl

/-- Per-slot outcome of a full `create`/`add_chunk`/`close`/read cycle. -/
theorem write_read_slots (c : Codec) (cs : List Chunk)
    (hx : ∀ ch ∈ cs, 0 ≤ ch.position.x ∧ ch.position.x < 32 ∧
      0 ≤ ch.position.z ∧ ch.position.z < 32)
    (hdist : cs.Pairwise (fun a b => a.position ≠ b.position))
    (hsc : ∀ ch ∈ cs, scOf c ch.data ≤ 255)
    (htot : 2 + totalSc c cs < 2 ^ 24)
    (hrt : ∀ ch ∈ cs, c.zlibDecompress (c.zlibCompress ch.data) = some ch.data) :
    ∃ w, writeAll c RegionFileWriter.create cs = .ok w ∧
      (∀ ch ∈ cs, RegionFile.get_chunk_from_index ⟨w.close⟩ c (slotNat ch.position) =
        .chunk { data := ch.data, position := ch.position }) ∧
      (∀ j, j < 1024 → (∀ ch ∈ cs, slotNat ch.position ≠ j) →
        RegionFile.get_chunk_from_index ⟨w.close⟩ c j = .absent) := by
  have hpos : ∀ ch ∈ cs, 0 ≤ slotIndexZ ch.position := by
    intro ch h
    obtain ⟨h1, h2, h3, h4⟩ := hx ch h
    rw [slotIndexZ_inRange _ h1 h2 h3 h4]
    omega
  obtain ⟨w, heq, hinv, hused, hfile, hhm, hplace⟩ :=
    writeAll_spec c cs _ writerInv_create hpos
  rw [create_used] at hused
  have hFsize : w.close.size = w.used_sectors * SECTOR_SIZE := by
    rw [close_size, hinv.size_eq]
  have h8192 : 8192 ≤ w.close.size := by
    rw [hFsize, SECTOR_SIZE_eq]
    have := hinv.used_ge
    omega
  refine ⟨w, heq, ?_, ?_⟩
  · -- written slots decode to their chunks
    intro ch hmem
    obtain ⟨pre, post, hdec⟩ := List.append_of_mem hmem
    obtain ⟨hx0, hx32, hz0, hz32⟩ := hx ch hmem
    have hj1024 : slotNat ch.position < 1024 := slotNat_lt ch.position
    have hscch : scOf c ch.data ≤ 255 := hsc ch hmem
    have htpre : totalSc c cs = totalSc c pre + scOf c ch.data + totalSc c post := by
      rw [hdec, totalSc_append, totalSc_cons]
      ring
    have hsi24 : 2 + totalSc c pre < 2 ^ 24 := by omega
    have hnodup : ∀ ch2 ∈ post, slotNat ch2.position ≠ slotNat ch.position := by
      intro ch2 h2 hcontra
      have hmem2 : ch2 ∈ cs := by rw [hdec]; simp [h2]
      obtain ⟨hq0, hq32, hr0, hr32⟩ := hx ch2 hmem2
      have hne : ch.position ≠ ch2.position := by
        rw [hdec] at hdist
        have hp2 := (List.pairwise_append.mp hdist).2.1
        exact (List.pairwise_cons.mp hp2).1 ch2 h2
      exact hne (slotNat_inj ch.position ch2.position hx0 hx32 hz0 hz32
        hq0 hq32 hr0 hr32 hcontra.symm)
    obtain ⟨hfseg, hhdrseg⟩ := hplace pre ch post hdec
    rw [create_used] at hfseg hhdrseg
    have hhdrseg2 := hhdrseg hnodup
    have hmod1 : (2 + totalSc c pre) % 2 ^ 32 = 2 + totalSc c pre :=
      Nat.mod_eq_of_lt (by omega)
    have hmod2 : scOf c ch.data % 2 ^ 32 = scOf c ch.data :=
      Nat.mod_eq_of_lt (by omega)
    rw [hmod1, hmod2, entryField_eq _ _ (by omega) (by omega)] at hhdrseg2
    -- move the segments from writer views to the closed file
    have hhdrF : seg w.close (slotNat ch.position * 4) 4 =
        toBE32 ((2 + totalSc c pre) * 256 + scOf c ch.data) := by
      rw [← hhdrseg2]
      apply seg_congr
      intro k hk1 hk2
      apply close_byte_lt
      rw [INITIAL_CAPACITY_eq]
      omega
    have hfsegF : seg w.close ((2 + totalSc c pre) * SECTOR_SIZE)
        (RegionFileWriter.create_chunk_data_stream c ch.data).length =
        RegionFileWriter.create_chunk_data_stream c ch.data := by
      have hcongr2 : seg w.close ((2 + totalSc c pre) * SECTOR_SIZE)
          (RegionFileWriter.create_chunk_data_stream c ch.data).length =
          seg w.file ((2 + totalSc c pre) * SECTOR_SIZE)
            (RegionFileWriter.create_chunk_data_stream c ch.data).length := by
        apply seg_congr
        intro k hk1 hk2
        apply close_byte_ge
        rw [INITIAL_CAPACITY_eq]
        rw [SECTOR_SIZE_eq] at hk1
        omega
      rw [hcongr2]
      exact hfseg
    have hflen : (RegionFileWriter.create_chunk_data_stream c ch.data).length =
        5 + (c.zlibCompress ch.data).length := framed_length c ch.data
    have hfit := framed_le_sectors c ch.data
    have hchunk := get_chunk_from_index_present c w.close (slotNat ch.position)
      (2 + totalSc c pre) (scOf c ch.data) ch.data
      (by rw [hFsize, SECTOR_SIZE_eq]; have := hinv.used_ge; omega)
      hhdrF (by omega) (by omega) (by omega)
      (by rw [hFsize]
          apply Nat.mul_le_mul_right
          omega)
      hfsegF hfit
      (by rw [SECTOR_SIZE_eq] at hfit; omega)
      (hrt ch hmem)
    rw [hchunk]
    -- fix up the position
    have hslot := slotNat_inRange ch.position hx0 hx32 hz0 hz32
    have hxlt : ch.position.x.toNat < 32 := by omega
    have hmodx : slotNat ch.position % 32 = ch.position.x.toNat := by omega
    have hdivz : slotNat ch.position / 32 = ch.position.z.toNat := by omega
    have h1 : Int.ofNat ch.position.x.toNat = ch.position.x := by
      simpa using Int.toNat_of_nonneg hx0
    have h2 : Int.ofNat ch.position.z.toNat = ch.position.z := by
      simpa using Int.toNat_of_nonneg hz0
    rw [hmodx, hdivz, h1, h2]
  · -- untouched slots read back absent
    intro j hj hnone
    have hhdrF : seg w.close (j * 4) 4 = [0, 0, 0, 0] := by
      have hpres : seg w.close (j * 4) 4 = seg RegionFileWriter.create.header_map (j * 4) 4 := by
        have h1 : seg w.close (j * 4) 4 = seg w.header_map (j * 4) 4 := by
          apply seg_congr
          intro k hk1 hk2
          apply close_byte_lt
          rw [INITIAL_CAPACITY_eq]
          omega
        rw [h1]
        apply seg_congr
        intro k hk1 hk2
        apply hhm k (by rw [INITIAL_CAPACITY_eq]; omega)
        intro ch hch
        have hslot := hnone ch hch
        have hlt := slotNat_lt ch.position
        rcases Nat.lt_or_ge (slotNat ch.position) j with h | h
        · right; omega
        · left; omega
      rw [hpres]
      rw [seg_four]
      rfl
    exact get_chunk_from_index_absent c w.close j (by omega) hhdrF

/-- A run of absent slots streams as `replicate .absent`. -/
theorem streamFrom_absent (c : Codec) (rf : RegionFile) (n : Nat) :
    ∀ (i : Nat),
    (∀ j, j < n → rf.get_chunk_from_index c (i + j) = .absent) →
    streamFrom c rf i n = List.replicate n .absent := by
  induction n with
  | zero => intro i _; rfl
  | succ n ih =>
    intro i habs
    have h0 : rf.get_chunk_from_index c i = .absent := by
      simpa using habs 0 (by omega)
    simp only [streamFrom, h0, List.replicate_succ]
    rw [ih (i + 1) (by
      intro j hj
      have := habs (j + 1) (by omega)
      simpa [show i + (j + 1) = i + 1 + j by omega] using this)]

/-- `add_chunk` succeeds on any writer state when the slot index is
nonnegative (no invariant needed: only `write_entry` can panic). -/
theorem add_chunk_ok_any (c : Codec) (w : RegionFileWriter) (ch : Chunk)
    (hidx : 0 ≤ slotIndexZ ch.position) :
    ∃ w', w.add_chunk c ch = .ok w' := by
  simp only [RegionFileWriter.add_chunk, RegionFileWriter.write_entry]
  rw [if_neg (not_lt.mpr hidx)]
  exact ⟨_, rfl⟩

/-! ## Claim theorems -/

/-- C8: for every `sector_index ∈ [2, 2^24)` and `sector_count ∈ [1, 2^8)`,
packing the header entry as the big-endian bytes of
`(sector_index << 8) | sector_count` and decoding them back (upper 24 bits,
lower 8 bits) recovers the same pair. -/
theorem C8_header_roundtrip (sector_index sector_count : Nat)
    (h1 : 2 ≤ sector_index) (h2 : sector_index < 2 ^ 24)
    (h3 : 1 ≤ sector_count) (h4 : sector_count < 2 ^ 8) :
    Nat.land (fromBE32 (toBE32 (entryField sector_index sector_count)) >>> 8)
        0xFFFFFF = sector_index ∧
      Nat.land (fromBE32 (toBE32 (entryField sector_index sector_count))) 0xFF =
        sector_count := by
  rw [entryField_eq _ _ h2 (by omega), fromBE32_toBE32 _ (by omega)]
  exact ⟨decode_sector_index _ _ h2 (by omega), decode_sector_count _ _ (by omega)⟩

theorem C8_witness :
    Nat.land (fromBE32 (toBE32 (entryField 2 1)) >>> 8) 0xFFFFFF = 2 ∧
      Nat.land (fromBE32 (toBE32 (entryField 2 1))) 0xFF = 1 :=
  C8_header_roundtrip 2 1 (by norm_num) (by norm_num) (by norm_num) (by norm_num)

/-- C5: after `create` and any sequence of successful `add_chunk` calls the
file length equals `used_sectors * 4096` (hence is a multiple of 4096); a
fresh writer has exactly 8192 bytes and all 1024 header entries of its
closed file read back as absent. -/
theorem C5_sector_alignment (c : Codec) (w : RegionFileWriter)
    (h : Reachable c w) :
    w.file.size = w.used_sectors * SECTOR_SIZE ∧
    w.file.size % 4096 = 0 ∧
    RegionFileWriter.create.file.size = 8192 ∧
    (∀ i, i < 1024 →
      RegionFile.read_entry ⟨RegionFileWriter.create.close⟩ i = .ok none) := by
  have hinv := reachable_inv h
  refine ⟨hinv.size_eq, ?_, rfl, ?_⟩
  · rw [hinv.size_eq, SECTOR_SIZE_eq]
    omega
  · intro i hi
    apply read_entry_absent
    · show i * 4 + 4 ≤ RegionFileWriter.create.file.size
      show i * 4 + 4 ≤ 8192
      omega
    · rw [seg_four]
      simp [RegionFileWriter.close, RegionFileWriter.create, zeros]

theorem C5_witness :
    RegionFileWriter.create.file.size =
        RegionFileWriter.create.used_sectors * SECTOR_SIZE ∧
      RegionFileWriter.create.file.size % 4096 = 0 ∧
      RegionFileWriter.create.file.size = 8192 ∧
      (∀ i, i < 1024 →
        RegionFile.read_entry ⟨RegionFileWriter.create.close⟩ i = .ok none) :=
  C5_sector_alignment idCodec RegionFileWriter.create Reachable.create

/-- C6 counterexample: `add_chunk` at position `(-1, 0)` computes header
entry index `-1`, whose `usize` cast makes the header-map slice panic — the
write does not complete. -/
theorem C6_counterexample :
    RegionFileWriter.create.add_chunk idCodec
        { data := [0], position := { x := -1, z := 0 } } =
      .error "range start index out of range for slice" := by
  rfl

/-- C6 amended: `add_chunk` completes without panicking exactly when the
truncated-remainder slot index `(x % 32) + (z % 32) * 32` is nonnegative;
for positions making it negative (e.g. `x < 0, z = 0`) the header slice
panics. -/
theorem C6_add_chunk_panic_iff (c : Codec) (w : RegionFileWriter) (ch : Chunk) :
    (∃ w', w.add_chunk c ch = .ok w') ↔ 0 ≤ slotIndexZ ch.position := by
  constructor
  · rintro ⟨w', h⟩
    by_contra hneg
    push_neg at hneg
    rw [add_chunk_err c w ch hneg] at h
    cases h
  · exact add_chunk_ok_any c w ch

/-- C9: a successful `add_chunk` modifies only the 4-byte header entry of
its slot and file bytes from `used_sectors * 4096` on: every other header
entry and every previously written byte keeps its value, and the file grows
to exactly the newly reserved sector range. -/
theorem C9_frame (c : Codec) (w : RegionFileWriter) (ch : Chunk)
    (w' : RegionFileWriter) (hw : WriterInv w)
    (h : w.add_chunk c ch = .ok w') :
    w'.used_sectors = w.used_sectors + scOf c ch.data ∧
    (∀ k, k < w.used_sectors * SECTOR_SIZE → w'.file.byte k = w.file.byte k) ∧
    (∀ j, j < 1024 → j ≠ slotNat ch.position →
      seg w'.header_map (j * 4) 4 = seg w.header_map (j * 4) 4) ∧
    w'.file.size = w'.used_sectors * SECTOR_SIZE := by
  have hidx : 0 ≤ slotIndexZ ch.position := by
    by_contra hn
    push_neg at hn
    rw [add_chunk_err c w ch hn] at h
    cases h
  obtain ⟨w2, heq, hinv2, hused, hfile, hfseg, hhm, hhseg⟩ :=
    add_chunk_ok c w ch hw hidx
  rw [heq] at h
  cases h
  refine ⟨hused, ?_, ?_, hinv2.size_eq⟩
  · intro k hk
    apply hfile
    rw [hw.size_eq]
    exact hk
  · intro j hj hne
    apply seg_congr
    intro k hk1 hk2
    apply hhm
    · rw [INITIAL_CAPACITY_eq]
      omega
    · have hslt := slotNat_lt ch.position
      unfold slotNat at hslt hne
      rcases Nat.lt_or_ge j (slotIndexZ ch.position).toNat with hlt | hge
      · left
        omega
      · right
        omega

def c9ch : Chunk := { data := [1, 2, 3], position := { x := 0, z := 0 } }

def c9w1 : RegionFileWriter :=
  match RegionFileWriter.create.add_chunk idCodec c9ch with
  | .ok w => w
  | .error _ => RegionFileWriter.create

theorem C9_witness :
    c9w1.used_sectors = RegionFileWriter.create.used_sectors + scOf idCodec [1, 2, 3] ∧
      c9w1.file.byte 0 = RegionFileWriter.create.file.byte 0 ∧
      seg c9w1.header_map 20 4 = seg RegionFileWriter.create.header_map 20 4 :=
  have h := C9_frame idCodec RegionFileWriter.create c9ch c9w1 writerInv_create (by rfl)
  ⟨h.1, h.2.1 0 (by decide), by
    have := h.2.2.1 5 (by norm_num) (by decide)
    simpa using this⟩

/-- C10: `parse_name` returns a position (rather than panicking) exactly
when the name has at least three dot-separated fields whose second and
third both parse as signed 32-bit decimal integers. -/
theorem C10_parse_name (name : String) :
    (RegionFile.parse_name name).isSome ↔
      ∃ f0 f1 f2 rest, splitOnChar '.' name.data = f0 :: f1 :: f2 :: rest ∧
        (parseI32 f1).isSome ∧ (parseI32 f2).isSome := by
  unfold RegionFile.parse_name
  cases h : splitOnChar '.' name.data with
  | nil => simp [h]
  | cons f0 t0 =>
    cases t0 with
    | nil => simp [h]
    | cons f1 t1 =>
      cases t1 with
      | nil =>
        simp only [h, List.drop_succ_cons, List.drop_zero]
        cases hp1 : parseI32 f1 <;> simp [hp1]
      | cons f2 rest =>
        simp only [h, List.drop_succ_cons, List.drop_zero]
        cases hp1 : parseI32 f1 with
        | none => simp [hp1]
        | some x =>
          cases hp2 : parseI32 f2 with
          | none => simp [hp1, hp2]
          | some z =>
            simp only [hp1, hp2, Option.isSome_some, true_iff]
            exact ⟨f0, f1, f2, rest, rfl, by rw [hp1]; rfl, by rw [hp2]; rfl⟩

/-- `RegionFile::open` succeeds on every non-empty file and maps exactly
its bytes, so reader theorems stated over a non-empty `ByteBuf` describe
states the program reaches through `open`. -/
theorem openFile_ok (f : ByteBuf) (h : f.size ≠ 0) :
    RegionFile.openFile f = .ok { map := f } := by
  unfold RegionFile.openFile
  rw [if_neg h]

/-- C7 counterexample: `RegionFile::open` does not accept an empty file —
the zero-length mmap fails with an `io::Error`, so no chunk stream exists —
and an 8-byte all-zero file (which does open) does not produce every slot
element: the stream is cut short by a panic at the first header entry
crossing end-of-file. -/
theorem C7_counterexample :
    RegionFile.openFile (zeros 0) =
        .error "memory map must have a non-zero length" ∧
      RegionFile.openFile (zeros 8) = .ok { map := zeros 8 } ∧
      RegionFile.stream_chunks { map := zeros 8 } idCodec =
        [.absent, .absent, .panic "range end index out of range for slice"] :=
  ⟨rfl, rfl, rfl⟩

/-- C7 amended: `RegionFile::open` rejects an empty (length-0) file — the
zero-length mmap fails with an `io::Error` — so no chunk stream is
produced for it.  An all-zero file of nonzero length `L < 8192` opens, and
its stream has every slot absent when `L ≥ 4096` (the entry table read by
this code is only 4096 bytes); when `L < 4096` it yields `L / 4` absent
slots and then panics at the first entry crossing end-of-file. -/
theorem C7_short_file (c : Codec) (L : Nat) (hL : L < 8192) :
    (L = 0 → RegionFile.openFile (zeros L) =
        .error "memory map must have a non-zero length") ∧
    (0 < L → ∃ rf, RegionFile.openFile (zeros L) = .ok rf ∧
      rf.stream_chunks c =
        (if 4096 ≤ L then List.replicate 1024 SlotResult.absent
         else List.replicate (L / 4) SlotResult.absent ++
           [.panic "range end index out of range for slice"])) := by
  constructor
  · intro h0
    subst h0
    rfl
  · intro hpos
    refine ⟨{ map := zeros L }, openFile_ok (zeros L) ?_, ?_⟩
    · show ¬ L = 0
      omega
    have habs : ∀ j, j * 4 + 4 ≤ L →
        RegionFile.get_chunk_from_index ⟨zeros L⟩ c j = .absent := by
      intro j hj
      apply get_chunk_from_index_absent
      · show j * 4 + 4 ≤ L
        exact hj
      · rw [seg_four]
        rfl
    by_cases h4 : 4096 ≤ L
    · rw [if_pos h4]
      apply streamFrom_absent
      intro j hj
      have hE : ENTRY_COUNT = 1024 := rfl
      apply habs
      omega
    · rw [if_neg h4]
      push_neg at h4
      have hpaniC : RegionFile.get_chunk_from_index ⟨zeros L⟩ c (0 + L / 4) =
          .panic "range end index out of range for slice" := by
        apply get_chunk_from_index_oob
        show (0 + L / 4) * 4 + 4 > L
        omega
      have hstep := streamFrom_panicAt c ⟨zeros L⟩ (L / 4) 0 1024
        "range end index out of range for slice" (by omega) hpaniC
        (by
          intro j hj m
          rw [Nat.zero_add]
          rw [habs j (by omega)]
          intro hcon
          cases hcon)
      show streamFrom c ⟨zeros L⟩ 0 ENTRY_COUNT = _
      have hENTRY : ENTRY_COUNT = 1024 := rfl
      rw [hENTRY, hstep]
      congr 1
      apply streamFrom_absent
      intro j hj
      rw [Nat.zero_add]
      apply habs
      omega

theorem C7_witness :
    (0 : Nat) < 5 ∧ (5 : Nat) < 8192 ∧
      ∃ rf, RegionFile.openFile (zeros 5) = .ok rf ∧
        rf.stream_chunks idCodec =
          (if 4096 ≤ (5 : Nat) then List.replicate 1024 SlotResult.absent
           else List.replicate ((5 : Nat) / 4) SlotResult.absent ++
             [.panic "range end index out of range for slice"]) :=
  ⟨by norm_num, by norm_num,
    (C7_short_file idCodec 5 (by norm_num)).2 (by norm_num)⟩

/-- A present slot whose compression byte is unknown hits the
`expect("Invalid compression type")` panic. -/
theorem get_chunk_bad_tag (c : Codec) (F : ByteBuf) (e : RegionEntry) (b : Nat)
    (hbound : e.sector_index * SECTOR_SIZE + e.sector_count * SECTOR_SIZE ≤ F.size)
    (hsc5 : 5 ≤ e.sector_count * SECTOR_SIZE)
    (hexact : 1 ≤ fromBE32 ((seg F (e.sector_index * SECTOR_SIZE)
      (e.sector_count * SECTOR_SIZE)).take 4))
    (hbyte : F.byte (e.sector_index * SECTOR_SIZE + 4) = b)
    (hb : CompressionMode.from_int b = none) :
    RegionFile.get_chunk_from_entry ⟨F⟩ c e = .panic "Invalid compression type" := by
  obtain ⟨m, hm⟩ := Nat.exists_eq_add_of_le hexact
  have hsplit : (seg F (e.sector_index * SECTOR_SIZE)
      (e.sector_count * SECTOR_SIZE)).drop 4 =
      b :: seg F (e.sector_index * SECTOR_SIZE + 5)
        (e.sector_count * SECTOR_SIZE - 5) := by
    rw [seg_drop]
    rw [show e.sector_count * SECTOR_SIZE - 4 =
      (e.sector_count * SECTOR_SIZE - 5) + 1 from by omega]
    show F.byte (e.sector_index * SECTOR_SIZE + 4) :: _ = _
    rw [hbyte]
  simp only [RegionFile.get_chunk_from_entry]
  rw [if_neg (by omega), if_neg (by omega), hsplit, hm,
    show 1 + m = m + 1 from by omega, List.take_succ_cons]
  simp only [hb]

/-- C2 amended: a populated slot whose payload carries a compression byte
other than 1, 2 or 3 makes `stream_chunks` panic at that slot (the process
aborts via `expect`): the sequence ends with the panic after the earlier
slots, carries no per-slot error for it, and never reaches any later slot.
-/
theorem C2_bad_tag_panics (c : Codec) (F : ByteBuf) (p : Nat) (e : RegionEntry)
    (b : Nat) (hp : p < 1024)
    (hread : RegionFile.read_entry ⟨F⟩ p = .ok (some e))
    (hbound : e.sector_index * SECTOR_SIZE + e.sector_count * SECTOR_SIZE ≤ F.size)
    (hsc5 : 5 ≤ e.sector_count * SECTOR_SIZE)
    (hexact : 1 ≤ fromBE32 ((seg F (e.sector_index * SECTOR_SIZE)
      (e.sector_count * SECTOR_SIZE)).take 4))
    (hbyte : F.byte (e.sector_index * SECTOR_SIZE + 4) = b)
    (hb : CompressionMode.from_int b = none)
    (hprev : ∀ j, j < p → ∀ m,
      RegionFile.get_chunk_from_index ⟨F⟩ c j ≠ .panic m) :
    RegionFile.stream_chunks ⟨F⟩ c =
        streamFrom c ⟨F⟩ 0 p ++ [.panic "Invalid compression type"] ∧
      (RegionFile.stream_chunks ⟨F⟩ c).length = p + 1 := by
  have hslot : RegionFile.get_chunk_from_index ⟨F⟩ c (0 + p) =
      .panic "Invalid compression type" := by
    rw [Nat.zero_add]
    unfold RegionFile.get_chunk_from_index
    rw [hread]
    exact get_chunk_bad_tag c F e b hbound hsc5 hexact hbyte hb
  have hprev0 : ∀ j, j < p → ∀ m,
      RegionFile.get_chunk_from_index ⟨F⟩ c (0 + j) ≠ .panic m := by
    intro j hj m
    rw [Nat.zero_add]
    exact hprev j hj m
  have hstep := streamFrom_panicAt c ⟨F⟩ p 0 1024 "Invalid compression type"
    (by omega) hslot hprev0
  have hmain : RegionFile.stream_chunks ⟨F⟩ c =
      streamFrom c ⟨F⟩ 0 p ++ [.panic "Invalid compression type"] := by
    show streamFrom c ⟨F⟩ 0 ENTRY_COUNT = _
    rw [show ENTRY_COUNT = 1024 from rfl, hstep]
  refine ⟨hmain, ?_⟩
  rw [hmain, List.length_append, streamFrom_length c ⟨F⟩ p 0 hprev0]
  rfl

/-- A 16384-byte region file: slot (0,0) points at sector 2 whose payload
carries compression byte 9; slot (1,0) points at sector 3 holding a valid
uncompressed payload (bytes 97, 98).  All other bytes are zero. -/
def c2file : ByteBuf :=
  { size := 16384
    byte := fun k =>
      if k = 2 then 2 else if k = 3 then 1 else
      if k = 6 then 3 else if k = 7 then 1 else
      if k = 8195 then 2 else if k = 8196 then 9 else
      if k = 12291 then 3 else if k = 12292 then 3 else
      if k = 12293 then 97 else if k = 12294 then 98 else 0 }

/-- C2 counterexample: on a file whose slot 0 payload has compression byte
9 while slot 32 holds a valid chunk, the stream is a single panic element —
not a `Corrupt` error followed by the later valid chunk. -/
theorem C2_counterexample :
    RegionFile.stream_chunks ⟨c2file⟩ idCodec = [.panic "Invalid compression type"] := by
  decide

theorem C2_witness :
    RegionFile.stream_chunks ⟨c2file⟩ idCodec =
        streamFrom idCodec ⟨c2file⟩ 0 0 ++ [.panic "Invalid compression type"] ∧
      (RegionFile.stream_chunks ⟨c2file⟩ idCodec).length = 0 + 1 :=
  C2_bad_tag_panics idCodec c2file 0
    { position := { x := Int.ofNat 0, z := Int.ofNat 0 }
      sector_index := 2, sector_count := 1 }
    9 (by norm_num) (by rfl) (by decide) (by decide) (by decide) (by decide)
    (by rfl) (fun j hj _ => absurd hj (Nat.not_lt_zero j))

/-! ## Tag-surgery lemmas -/

theorem lookupKey_cons (e : String × NbtValue) (es : List (String × NbtValue))
    (k : String) :
    lookupKey (e :: es) k = if e.1 = k then some e.2 else lookupKey es k := by
  unfold lookupKey
  by_cases h : e.1 = k
  · rw [List.find?_cons_of_pos _ (by simp [h]), if_pos h]
  · rw [List.find?_cons_of_neg _ (by simp [h]), if_neg h]

theorem removeKey_cons (e : String × NbtValue) (es : List (String × NbtValue))
    (k : String) :
    removeKey (e :: es) k = if e.1 = k then removeKey es k else e :: removeKey es k := by
  unfold removeKey
  rw [List.filter_cons]
  by_cases h : e.1 = k
  · simp [h]
  · simp [h]

theorem mapSectionsEntry_cons (e : String × NbtValue)
    (es : List (String × NbtValue)) :
    mapSectionsEntry (e :: es) =
      (if e.1 = "sections" then (e.1, stripSectionsValue e.2) else e) ::
        mapSectionsEntry es := by
  simp [mapSectionsEntry]

theorem lookupKey_removeKey_self (es : List (String × NbtValue)) (k : String) :
    lookupKey (removeKey es k) k = none := by
  induction es with
  | nil => rfl
  | cons e es ih =>
    rw [removeKey_cons]
    by_cases h : e.1 = k
    · rw [if_pos h]
      exact ih
    · rw [if_neg h, lookupKey_cons, if_neg h]
      exact ih

theorem lookupKey_removeKey_ne (es : List (String × NbtValue)) (k k2 : String)
    (h : k2 ≠ k) : lookupKey (removeKey es k) k2 = lookupKey es k2 := by
  induction es with
  | nil => rfl
  | cons e es ih =>
    rw [removeKey_cons, lookupKey_cons]
    by_cases he : e.1 = k
    · rw [if_pos he, if_neg (by rw [he]; exact fun hc => h hc.symm)]
      exact ih
    · rw [if_neg he, lookupKey_cons]
      by_cases he2 : e.1 = k2
      · rw [if_pos he2, if_pos he2]
      · rw [if_neg he2, if_neg he2]
        exact ih

theorem lookupKey_mapSectionsEntry_ne (es : List (String × NbtValue)) (k : String)
    (h : k ≠ "sections") :
    lookupKey (mapSectionsEntry es) k = lookupKey es k := by
  induction es with
  | nil => rfl
  | cons e es ih =>
    rw [mapSectionsEntry_cons, lookupKey_cons]
    by_cases he : e.1 = "sections"
    · rw [if_pos he]
      have hek : ¬ e.1 = k := by rw [he]; exact fun hc => h hc.symm
      rw [if_neg hek, lookupKey_cons, if_neg hek]
      exact ih
    · rw [if_neg he, lookupKey_cons]
      by_cases he2 : e.1 = k
      · rw [if_pos he2, if_pos he2]
      · rw [if_neg he2, if_neg he2]
        exact ih

theorem lookupKey_mapSectionsEntry_sections (es : List (String × NbtValue))
    (u : NbtValue) (h : lookupKey es "sections" = some u) :
    lookupKey (mapSectionsEntry es) "sections" = some (stripSectionsValue u) := by
  induction es with
  | nil => cases h
  | cons e es ih =>
    rw [mapSectionsEntry_cons]
    rw [lookupKey_cons] at h
    by_cases he : e.1 = "sections"
    · rw [if_pos he] at h ⊢
      cases h
      rw [lookupKey_cons, if_pos he]
    · rw [if_neg he] at h ⊢
      rw [lookupKey_cons, if_neg he]
      exact ih h

theorem removeKey_idem (es : List (String × NbtValue)) (k : String) :
    removeKey (removeKey es k) k = removeKey es k := by
  induction es with
  | nil => rfl
  | cons e es ih =>
    rw [removeKey_cons]
    by_cases h : e.1 = k
    · rw [if_pos h, ih]
    · rw [if_neg h, removeKey_cons, if_neg h, ih]

theorem removeKey_comm (es : List (String × NbtValue)) (a b : String) :
    removeKey (removeKey es a) b = removeKey (removeKey es b) a := by
  induction es with
  | nil => rfl
  | cons e es ih =>
    rw [removeKey_cons, removeKey_cons]
    by_cases ha : e.1 = a <;> by_cases hb : e.1 = b
    · rw [if_pos ha, if_pos hb]
      exact ih
    · rw [if_pos ha, if_neg hb, removeKey_cons, if_pos ha]
      exact ih
    · rw [if_neg ha, if_pos hb, removeKey_cons, if_pos hb]
      exact ih
    · rw [if_neg ha, if_neg hb, removeKey_cons, removeKey_cons, if_neg ha, if_neg hb,
        ih]

theorem removeKey_mapSectionsEntry (es : List (String × NbtValue)) (k : String) :
    removeKey (mapSectionsEntry es) k = mapSectionsEntry (removeKey es k) := by
  induction es with
  | nil => rfl
  | cons e es ih =>
    rw [mapSectionsEntry_cons, removeKey_cons, removeKey_cons]
    by_cases he : e.1 = "sections"
    · rw [if_pos he]
      by_cases hk : e.1 = k
      · rw [if_pos (by simpa [he] using hk), if_pos hk, ih]
      · rw [if_neg (by simpa [he] using hk), if_neg hk, mapSectionsEntry_cons,
          if_pos he, ih]
    · rw [if_neg he]
      by_cases hk : e.1 = k
      · rw [if_pos hk, if_pos hk, ih]
      · rw [if_neg hk, if_neg hk, mapSectionsEntry_cons, if_neg he, ih]

theorem stripSection_idem (s : NbtValue) :
    stripSection (stripSection s) = stripSection s := by
  cases s with
  | compound es =>
    simp only [stripSection]
    rw [removeKey_comm (removeKey es "SkyLight") "BlockLight" "SkyLight",
      removeKey_idem es "SkyLight", removeKey_idem (removeKey es "SkyLight") "BlockLight"]
  | byte v => rfl
  | short v => rfl
  | int v => rfl
  | long v => rfl
  | floatBits v => rfl
  | doubleBits v => rfl
  | byteArray v => rfl
  | string v => rfl
  | list elems => rfl
  | intArray v => rfl
  | longArray v => rfl

theorem stripSectionsValue_idem (u : NbtValue) :
    stripSectionsValue (stripSectionsValue u) = stripSectionsValue u := by
  cases u with
  | list elems =>
    show NbtValue.list ((elems.map stripSection).map stripSection) = _
    rw [List.map_map]
    congr 1
    apply List.map_congr_left
    intro s _
    exact stripSection_idem s
  | byte v => rfl
  | short v => rfl
  | int v => rfl
  | long v => rfl
  | floatBits v => rfl
  | doubleBits v => rfl
  | byteArray v => rfl
  | string v => rfl
  | compound entries => rfl
  | intArray v => rfl
  | longArray v => rfl

theorem mapSectionsEntry_idem (es : List (String × NbtValue)) :
    mapSectionsEntry (mapSectionsEntry es) = mapSectionsEntry es := by
  induction es with
  | nil => rfl
  | cons e es ih =>
    rw [mapSectionsEntry_cons, mapSectionsEntry_cons]
    by_cases he : e.1 = "sections"
    · rw [if_pos he, if_pos he, ih, stripSectionsValue_idem]
    · rw [if_neg he, if_neg he, ih]

theorem stripValue_idem (v : NbtValue) : stripValue (stripValue v) = stripValue v := by
  cases v with
  | compound level =>
    simp only [stripValue]
    rw [removeKey_mapSectionsEntry, removeKey_mapSectionsEntry, mapSectionsEntry_idem,
      removeKey_comm (removeKey level "Heightmaps") "isLightOn" "Heightmaps",
      removeKey_idem level "Heightmaps",
      removeKey_idem (removeKey level "Heightmaps") "isLightOn"]
  | byte v => rfl
  | short v => rfl
  | int v => rfl
  | long v => rfl
  | floatBits v => rfl
  | doubleBits v => rfl
  | byteArray v => rfl
  | string v => rfl
  | list elems => rfl
  | intArray v => rfl
  | longArray v => rfl

theorem stripValue_not_compound (v : NbtValue)
    (h : ∀ m, v ≠ .compound m) : stripValue v = v := by
  cases v with
  | compound level => exact absurd rfl (h level)
  | byte w => rfl
  | short w => rfl
  | int w => rfl
  | long w => rfl
  | floatBits w => rfl
  | doubleBits w => rfl
  | byteArray w => rfl
  | string w => rfl
  | list elems => rfl
  | intArray w => rfl
  | longArray w => rfl

/-- C3 amended: on a chunk whose data deserializes to value `v` and whose
stripped value serializes to `out`, `strip_chunk` returns `out` at the same
position; on a compound root the children `Heightmaps` and `isLightOn` are
removed, a root `sections` list has `SkyLight`/`BlockLight` removed from
each compound element, every other root child is unchanged, and a chunk
stored under a `Level` compound is NOT descended into (only root-level
names are touched); a non-compound root is left unchanged. -/
theorem C3_strip_contract (nc : NbtCodec) (ch : Chunk) (v : NbtValue)
    (out : List Nat)
    (hp : nc.fromBytes ch.data = some v)
    (hout : nc.toBytes (stripValue v) = some out) :
    strip_chunk nc ch = .ok { data := out, position := ch.position } ∧
    (∀ m, v = .compound m →
      ∃ m2, stripValue v = .compound m2 ∧
        lookupKey m2 "Heightmaps" = none ∧
        lookupKey m2 "isLightOn" = none ∧
        (∀ k, k ≠ "Heightmaps" → k ≠ "isLightOn" → k ≠ "sections" →
          lookupKey m2 k = lookupKey m k) ∧
        (∀ ss, lookupKey m "sections" = some (.list ss) →
          lookupKey m2 "sections" = some (.list (ss.map stripSection)))) ∧
    (∀ es, ∃ es2, stripSection (.compound es) = .compound es2 ∧
      lookupKey es2 "SkyLight" = none ∧
      lookupKey es2 "BlockLight" = none ∧
      (∀ k, k ≠ "SkyLight" → k ≠ "BlockLight" →
        lookupKey es2 k = lookupKey es k)) ∧
    ((∀ m, v ≠ .compound m) → stripValue v = v ∧
      (nc.toBytes v = some ch.data → out = ch.data)) := by
  refine ⟨?_, ?_, ?_, ?_⟩
  · simp only [strip_chunk, hp, hout]
  · intro m hm
    subst hm
    refine ⟨mapSectionsEntry (removeKey (removeKey m "Heightmaps") "isLightOn"),
      rfl, ?_, ?_, ?_, ?_⟩
    · rw [lookupKey_mapSectionsEntry_ne _ _ (by decide),
        lookupKey_removeKey_ne _ _ _ (by decide), lookupKey_removeKey_self]
    · rw [lookupKey_mapSectionsEntry_ne _ _ (by decide), lookupKey_removeKey_self]
    · intro k hk1 hk2 hk3
      rw [lookupKey_mapSectionsEntry_ne _ _ hk3,
        lookupKey_removeKey_ne _ _ _ hk2, lookupKey_removeKey_ne _ _ _ hk1]
    · intro ss hss
      have h1 : lookupKey (removeKey (removeKey m "Heightmaps") "isLightOn")
          "sections" = some (.list ss) := by
        rw [lookupKey_removeKey_ne _ _ _ (by decide),
          lookupKey_removeKey_ne _ _ _ (by decide)]
        exact hss
      rw [lookupKey_mapSectionsEntry_sections _ _ h1]
      rfl
  · intro es
    refine ⟨removeKey (removeKey es "SkyLight") "BlockLight", rfl, ?_, ?_, ?_⟩
    · rw [lookupKey_removeKey_ne _ _ _ (by decide), lookupKey_removeKey_self]
    · rw [lookupKey_removeKey_self]
    · intro k hk1 hk2
      rw [lookupKey_removeKey_ne _ _ _ hk2, lookupKey_removeKey_ne _ _ _ hk1]
  · intro hnc
    have hsv := stripValue_not_compound v hnc
    refine ⟨hsv, ?_⟩
    intro hvb
    rw [hsv, hvb] at hout
    cases hout
    rfl

/-- An old-format chunk value: its state lives under a `Level` compound. -/
def c3levelEntries : List (String × NbtValue) :=
  [("Heightmaps", .byte 1), ("isLightOn", .byte 1), ("Other", .byte 7)]

def c3v : NbtValue := .compound [("Level", .compound c3levelEntries)]

/-- Table instantiation of the NBT codec for the Level counterexample. -/
def c3codec : NbtCodec :=
  { fromBytes := fun bs => if bs = [0] then some c3v else none
    toBytes := fun _ => some [0] }

/-- C3 counterexample: on a chunk whose state is stored under a `Level`
compound, `strip_chunk` succeeds but removes nothing — `Heightmaps` is
still present inside `Level`, contradicting the claim that the removals
apply to the `Level` compound's children. -/
theorem C3_counterexample :
    strip_chunk c3codec { data := [0], position := { x := 0, z := 0 } } =
        .ok { data := [0], position := { x := 0, z := 0 } } ∧
      stripValue c3v = c3v ∧
      c3codec.fromBytes [0] = some c3v ∧
      lookupKey c3levelEntries "Heightmaps" = some (.byte 1) :=
  ⟨rfl, rfl, rfl, rfl⟩

/-- A modern chunk value exercising every feature the surgery touches. -/
def c3wv : NbtValue :=
  .compound [("Heightmaps", .byte 1), ("isLightOn", .byte 1),
    ("InhabitedTime", .int 42),
    ("sections", .list [.compound [("Y", .byte 0), ("SkyLight", .byte 5),
      ("BlockLight", .byte 6), ("block_states", .compound [])]])]

/-- Table instantiation of the NBT codec: `[0]` decodes to `c3wv`, `[1]` to
its stripped value; serialization always emits `[1]`. -/
def c34codec : NbtCodec :=
  { fromBytes := fun bs =>
      if bs = [0] then some c3wv
      else if bs = [1] then some (stripValue c3wv) else none
    toBytes := fun _ => some [1] }

theorem C3_witness :
    strip_chunk c34codec { data := [0], position := { x := 0, z := 0 } } =
        .ok { data := [1], position := { x := 0, z := 0 } } ∧
      (∀ m, c3wv = .compound m →
        ∃ m2, stripValue c3wv = .compound m2 ∧
          lookupKey m2 "Heightmaps" = none ∧
          lookupKey m2 "isLightOn" = none ∧
          (∀ k, k ≠ "Heightmaps" → k ≠ "isLightOn" → k ≠ "sections" →
            lookupKey m2 k = lookupKey m k) ∧
          (∀ ss, lookupKey m "sections" = some (.list ss) →
            lookupKey m2 "sections" = some (.list (ss.map stripSection)))) ∧
      (∀ es, ∃ es2, stripSection (.compound es) = .compound es2 ∧
        lookupKey es2 "SkyLight" = none ∧
        lookupKey es2 "BlockLight" = none ∧
        (∀ k, k ≠ "SkyLight" → k ≠ "BlockLight" →
          lookupKey es2 k = lookupKey es k)) ∧
      ((∀ m, c3wv ≠ .compound m) → stripValue c3wv = c3wv ∧
        (c34codec.toBytes c3wv = some [0] → [1] = [0])) :=
  C3_strip_contract c34codec { data := [0], position := { x := 0, z := 0 } }
    c3wv [1] (by rfl) (by rfl)

/-- C4: `strip_chunk` is idempotent: when stripping succeeds (its output
re-parses to the stripped value), re-stripping returns the same bytes at
the same position. -/
theorem C4_strip_idempotent (nc : NbtCodec) (ch : Chunk) (v : NbtValue)
    (out : List Nat)
    (hp : nc.fromBytes ch.data = some v)
    (hout : nc.toBytes (stripValue v) = some out)
    (hre : nc.fromBytes out = some (stripValue v)) :
    strip_chunk nc ch = .ok { data := out, position := ch.position } ∧
    strip_chunk nc { data := out, position := ch.position } =
      .ok { data := out, position := ch.position } := by
  constructor
  · simp only [strip_chunk, hp, hout]
  · simp only [strip_chunk, hre, stripValue_idem, hout]

theorem C4_witness :
    strip_chunk c34codec { data := [0], position := { x := 0, z := 0 } } =
        .ok { data := [1], position := { x := 0, z := 0 } } ∧
      strip_chunk c34codec { data := [1], position := { x := 0, z := 0 } } =
        .ok { data := [1], position := { x := 0, z := 0 } } :=
  C4_strip_idempotent c34codec { data := [0], position := { x := 0, z := 0 } }
    c3wv [1] (by rfl) (by rfl) (by rfl)

/-! ## C1: write-then-read -/

theorem byte_of_seg_eq {f : ByteBuf} {off len : Nat} {l : List Nat}
    (h : seg f off len = l) (t : Nat) (ht : t < len) :
    f.byte (off + t) = l.getD t 0 := by
  have h2 := congrArg (fun x => x[t]?) h
  simp only [seg_getElem?, ht, if_pos] at h2
  rw [List.getD_eq_getElem?_getD, ← h2]
  rfl

theorem create_stream_eq (c : Codec) (d : List Nat) :
    RegionFileWriter.create_chunk_data_stream c d =
      toBE32 (1 + (c.zlibCompress d).length) ++
        (CompressionMode.Zlib.to_int :: c.zlibCompress d) := by
  unfold RegionFileWriter.create_chunk_data_stream
    RegionFileWriter.create_compressed_chunk_payload
  simp
  rw [Nat.add_comm]

theorem streamFrom_getElem_zero (c : Codec) (rf : RegionFile) (i n : Nat)
    (hn : 0 < n) :
    (streamFrom c rf i n)[0]? = some (rf.get_chunk_from_index c i) := by
  cases n with
  | zero => omega
  | succ n2 =>
    cases h : rf.get_chunk_from_index c i with
    | panic m => simp [streamFrom, h]
    | absent => simp [streamFrom, h]
    | chunk ch => simp [streamFrom, h]
    | ioError e => simp [streamFrom, h]

/-- C1 amended: write-then-read identity for chunk sets with distinct
in-range positions whose framed compressed payloads each fit in 255
sectors (and whose total allocation stays below 2^24 sectors): every
written position reads back as a present chunk with the written data, and
every other slot reads back absent. -/
theorem C1_write_then_read (c : Codec) (cs : List Chunk)
    (hx : ∀ ch ∈ cs, 0 ≤ ch.position.x ∧ ch.position.x < 32 ∧
      0 ≤ ch.position.z ∧ ch.position.z < 32)
    (hdist : cs.Pairwise (fun a b => a.position ≠ b.position))
    (hsc : ∀ ch ∈ cs, scOf c ch.data ≤ 255)
    (htot : 2 + totalSc c cs < 2 ^ 24)
    (hrt : ∀ ch ∈ cs, c.zlibDecompress (c.zlibCompress ch.data) = some ch.data) :
    ∃ w, writeAll c RegionFileWriter.create cs = .ok w ∧
      (RegionFile.stream_chunks ⟨w.close⟩ c).length = 1024 ∧
      (∀ ch ∈ cs, (RegionFile.stream_chunks ⟨w.close⟩ c)[slotNat ch.position]? =
        some (.chunk { data := ch.data, position := ch.position })) ∧
      (∀ j, j < 1024 → (∀ ch ∈ cs, slotNat ch.position ≠ j) →
        (RegionFile.stream_chunks ⟨w.close⟩ c)[j]? = some .absent) := by
  classical
  obtain ⟨w, heq, hchunk, habs⟩ := write_read_slots c cs hx hdist hsc htot hrt
  have hnp0 : ∀ j, j < 1024 → ∀ m,
      RegionFile.get_chunk_from_index ⟨w.close⟩ c (0 + j) ≠ .panic m := by
    intro j hj m
    rw [Nat.zero_add]
    by_cases hex : ∃ ch, ch ∈ cs ∧ slotNat ch.position = j
    · obtain ⟨ch, hch, hsl⟩ := hex
      rw [← hsl, hchunk ch hch]
      intro hcon
      cases hcon
    · push_neg at hex
      rw [habs j hj hex]
      intro hcon
      cases hcon
  have hlen : (RegionFile.stream_chunks ⟨w.close⟩ c).length = 1024 := by
    show (streamFrom c ⟨w.close⟩ 0 ENTRY_COUNT).length = 1024
    rw [show ENTRY_COUNT = 1024 from rfl]
    exact streamFrom_length c ⟨w.close⟩ 1024 0 hnp0
  have hget : ∀ k, k < 1024 → (RegionFile.stream_chunks ⟨w.close⟩ c)[k]? =
      some (RegionFile.get_chunk_from_index ⟨w.close⟩ c k) := by
    intro k hk
    show (streamFrom c ⟨w.close⟩ 0 ENTRY_COUNT)[k]? = _
    rw [show ENTRY_COUNT = 1024 from rfl,
      streamFrom_getElem? c ⟨w.close⟩ 1024 0 k hnp0, if_pos hk, Nat.zero_add]
  refine ⟨w, heq, hlen, ?_, ?_⟩
  · intro ch hch
    rw [hget _ (slotNat_lt ch.position), hchunk ch hch]
  · intro j hj hnone
    rw [hget j hj, habs j hj hnone]

def c1cs : List Chunk :=
  [{ data := [10, 20, 30], position := { x := 0, z := 0 } },
   { data := [7], position := { x := 5, z := 7 } }]

theorem C1_witness :
    ∃ w, writeAll idCodec RegionFileWriter.create c1cs = .ok w ∧
      (RegionFile.stream_chunks ⟨w.close⟩ idCodec).length = 1024 ∧
      (∀ ch ∈ c1cs,
        (RegionFile.stream_chunks ⟨w.close⟩ idCodec)[slotNat ch.position]? =
          some (.chunk { data := ch.data, position := ch.position })) ∧
      (∀ j, j < 1024 → (∀ ch ∈ c1cs, slotNat ch.position ≠ j) →
        (RegionFile.stream_chunks ⟨w.close⟩ idCodec)[j]? = some .absent) :=
  C1_write_then_read idCodec c1cs (by decide) (by decide) (by decide) (by decide)
    (by decide)

/-- A chunk too large for the format: 2^20 zero bytes, which the identity
codec leaves at 2^20 compressed bytes, needing 257 sectors. -/
def bigD : List Nat := List.replicate 1048576 0

def bigChunk : Chunk := { data := bigD, position := { x := 0, z := 0 } }

def c1w : RegionFileWriter :=
  match writeAll idCodec RegionFileWriter.create [bigChunk] with
  | .ok w => w
  | .error _ => RegionFileWriter.create

/-- C1 counterexample: a single chunk at (0,0) whose framed payload spills
into 257 sectors is written without error, but its header entry encodes
`(2 << 8) | 257 = 769`, which reads back as sector 3 count 1; streaming
slot 0 then sees a zero length field and yields an `UnexpectedEof` error
element instead of the written chunk. -/
theorem C1_counterexample :
    writeAll idCodec RegionFileWriter.create [bigChunk] = .ok c1w ∧
      scOf idCodec bigChunk.data = 257 ∧
      (RegionFile.stream_chunks ⟨c1w.close⟩ idCodec)[0]? =
        some (.ioError .unexpectedEof) := by
  have hclen : (idCodec.zlibCompress bigChunk.data).length = 1048576 :=
    List.length_replicate 1048576 0
  have hflen : (RegionFileWriter.create_chunk_data_stream idCodec bigChunk.data).length =
      1048581 := by
    rw [framed_length, hclen]
  have hsc257 : scOf idCodec bigChunk.data = 257 := by
    rw [scOf_formula, hclen, SECTOR_SIZE_eq]
  have hidx : (0 : Int) ≤ slotIndexZ bigChunk.position := by decide
  obtain ⟨w1, heq1, hinv1, hused1, hfile1, hfseg1, hhm1, hhseg1⟩ :=
    add_chunk_ok idCodec RegionFileWriter.create bigChunk writerInv_create hidx
  have heqAll : writeAll idCodec RegionFileWriter.create [bigChunk] = .ok w1 := by
    simp only [writeAll, heq1]
  have hc1w : c1w = w1 := by
    unfold c1w
    rw [heqAll]
  have hused : w1.used_sectors = 259 := by
    rw [hused1, create_used, hsc257]
  have hsize : w1.close.size = 1060864 := by
    rw [close_size, hinv1.size_eq, hused, SECTOR_SIZE_eq]
  -- slot 0's header entry decodes to sector 3, count 1
  have h0 : (slotIndexZ bigChunk.position).toNat = 0 := by decide
  rw [h0, create_used, hsc257] at hhseg1
  have hef : entryField (2 % 2 ^ 32) (257 % 2 ^ 32) = 769 := by decide
  rw [hef] at hhseg1
  have hhdr : seg w1.close (0 * 4) 4 = toBE32 (3 * 256 + 1) := by
    have hc : seg w1.close (0 * 4) 4 = seg w1.header_map (0 * 4) 4 := by
      apply seg_congr
      intro k hk1 hk2
      apply close_byte_lt
      rw [INITIAL_CAPACITY_eq]
      omega
    rw [hc, hhseg1]
  have hread : RegionFile.read_entry ⟨w1.close⟩ 0 =
      .ok (some { position := { x := Int.ofNat (0 % 32), z := Int.ofNat (0 / 32) }
                  sector_index := 3, sector_count := 1 }) :=
    read_entry_present w1.close 0 3 1 (by omega) hhdr (by norm_num) (by norm_num)
      (by norm_num)
  -- bytes 12288..12291 of the closed file are zeros inside the huge payload
  rw [create_used, SECTOR_SIZE_eq] at hfseg1
  have hbig : ∀ u, 5 ≤ u → u < 1048581 →
      (RegionFileWriter.create_chunk_data_stream idCodec bigChunk.data).getD u 0 = 0 := by
    intro u h5 hlt
    rw [create_stream_eq]
    rw [List.getD_eq_getElem?_getD, List.getElem?_append_right (by
      rw [toBE32_length]; omega)]
    rw [toBE32_length]
    have hu4 : u - 4 = (u - 5) + 1 := by omega
    rw [hu4]
    show ((CompressionMode.Zlib.to_int :: idCodec.zlibCompress bigChunk.data)[u - 5 + 1]?).getD 0 = 0
    rw [List.getElem?_cons_succ]
    show ((List.replicate 1048576 0)[u - 5]?).getD 0 = 0
    rw [List.getElem?_replicate, if_pos (by omega)]
    rfl
  have hbyte : ∀ t, t < 4 → w1.close.byte (3 * SECTOR_SIZE + t) = 0 := by
    intro t ht
    rw [SECTOR_SIZE_eq]
    rw [close_byte_ge w1 (3 * 4096 + t) (by rw [INITIAL_CAPACITY_eq]; omega)]
    have h1 : (3 : Nat) * 4096 + t = 2 * 4096 + (4096 + t) := by omega
    rw [h1, byte_of_seg_eq hfseg1 (4096 + t) (by rw [hflen]; omega)]
    exact hbig (4096 + t) (by omega) (by omega)
  have hb0 : w1.close.byte (3 * SECTOR_SIZE) = 0 := by
    have h := hbyte 0 (by omega)
    rw [Nat.add_zero] at h
    exact h
  have htake4 : (seg w1.close (3 * SECTOR_SIZE) (1 * SECTOR_SIZE)).take 4 =
      [0, 0, 0, 0] := by
    rw [seg_take, Nat.min_eq_left (by rw [SECTOR_SIZE_eq]; omega), seg_four,
      hb0, hbyte 1 (by omega), hbyte 2 (by omega), hbyte 3 (by omega)]
  have hentry_res : RegionFile.get_chunk_from_entry ⟨w1.close⟩ idCodec
      { position := { x := Int.ofNat (0 % 32), z := Int.ofNat (0 / 32) }
        sector_index := 3, sector_count := 1 } = .ioError .unexpectedEof := by
    simp only [RegionFile.get_chunk_from_entry]
    rw [if_neg (by rw [hsize, SECTOR_SIZE_eq]; omega),
      if_neg (by rw [SECTOR_SIZE_eq]; omega), htake4, fromBE32_zero,
      List.take_zero]
  have hslot0 : RegionFile.get_chunk_from_index ⟨w1.close⟩ idCodec 0 =
      .ioError .unexpectedEof := by
    unfold RegionFile.get_chunk_from_index
    rw [hread]
    exact hentry_res
  refine ⟨heqAll.trans (by rw [hc1w]), hsc257, ?_⟩
  rw [hc1w]
  show (streamFrom idCodec ⟨w1.close⟩ 0 ENTRY_COUNT)[0]? = _
  rw [streamFrom_getElem_zero idCodec ⟨w1.close⟩ 0 ENTRY_COUNT (by norm_num [ENTRY_COUNT]),
    hslot0]


end AnvilTools
